import Mathlib

/-!
# tcping-exporter: the per-scrape probing engine of `main.go`

A shallow embedding of `computeResult`, `Tcping` and `TcpingExporter.Collect`.

Numbers.  Go `int` is taken as the 64-bit two's-complement integer (`wrap64`).
Go `float64` is IEEE-754 binary64 with round-to-nearest, ties-to-even: a finite
value is carried as the exact rational it denotes, every arithmetic operation
computes the exact rational result and rounds it with `round64`, and division
by zero produces `NaN` or an infinity as in Go (it does not trap).  The sign of
zero is not tracked: the only operation here that could observe it is a
division by zero, and every divisor in `main.go` is `float64` of an `int` or
the constant `1000.0`, neither of which is ever `-0`.
-/

namespace Main

/-! ## float64 -/

/-- Values of Go's `float64`. -/
inductive F64 where
  | fin (q : ℚ)
  | pinf
  | ninf
  | nan
deriving DecidableEq

open F64

/-- The rational `2 ^ e` for an integer exponent. -/
def pow2 (e : ℤ) : ℚ :=
  if 0 ≤ e then ((2 ^ e.toNat : ℕ) : ℚ) else 1 / ((2 ^ (-e).toNat : ℕ) : ℚ)

/-- Worker of `log2n`: halve until below two; the first argument bounds the number of halvings. -/
def log2Aux : ℕ → ℕ → ℕ
  | 0, _ => 0
  | fuel + 1, n => if 2 ≤ n then log2Aux fuel (n / 2) + 1 else 0

/-- For `n ≥ 1`, the position of the leading bit of `n`: `2^(log2n n) ≤ n < 2^(log2n n + 1)`. -/
def log2n (n : ℕ) : ℕ := log2Aux n n

/-- For `x ≠ 0`, the binary exponent of `x`: the `e` with `2^e ≤ |x| < 2^(e+1)`. -/
def ilog2 (x : ℚ) : ℤ :=
  let e0 : ℤ := (log2n x.num.natAbs : ℤ) - (log2n x.den : ℤ)
  if |x| < pow2 e0 then e0 - 1 else e0

/-- Round a rational to the nearest integer, ties to the even one. -/
def rne (x : ℚ) : ℤ :=
  let f := ⌊x⌋
  if x - f < 1 / 2 then f
  else if 1 / 2 < x - f then f + 1
  else if f % 2 = 0 then f else f + 1

/-- Exponent of the unit in the last place of the binary64 binade of `x`:
53 significant bits for normal numbers, the fixed `2^-1074` grid below `2^-1022`. -/
def ulpExp (x : ℚ) : ℤ := max (ilog2 x) (-1022) - 52

/-- Round to nearest, ties to even, on the binary64 grid with unbounded exponent. -/
def roundQ (x : ℚ) : ℚ := (rne (x / pow2 (ulpExp x)) : ℚ) * pow2 (ulpExp x)

/-- The binary64 rounding of an exact result: `roundQ`, overflowing to an infinity. -/
def round64 (x : ℚ) : F64 :=
  if pow2 1024 ≤ |roundQ x| then (if 0 < x then pinf else ninf) else fin (roundQ x)

/-- Float `a + b`. -/
def fadd : F64 → F64 → F64
  | fin a, fin b => round64 (a + b)
  | fin _, pinf => pinf
  | fin _, ninf => ninf
  | pinf, fin _ => pinf
  | pinf, pinf => pinf
  | ninf, fin _ => ninf
  | ninf, ninf => ninf
  | pinf, ninf => nan
  | ninf, pinf => nan
  | nan, _ => nan
  | fin _, nan => nan
  | pinf, nan => nan
  | ninf, nan => nan

/-- Float `-a`. -/
def fneg : F64 → F64
  | fin a => fin (-a)
  | pinf => ninf
  | ninf => pinf
  | nan => nan

/-- An infinity of the given sign (`true` is negative). -/
def infOf (neg : Bool) : F64 := if neg then ninf else pinf

/-- Float `a * b`. -/
def fmul : F64 → F64 → F64
  | fin a, fin b => round64 (a * b)
  | fin a, pinf => if a = 0 then nan else infOf (decide (a < 0))
  | fin a, ninf => if a = 0 then nan else infOf (decide (0 < a))
  | pinf, fin b => if b = 0 then nan else infOf (decide (b < 0))
  | ninf, fin b => if b = 0 then nan else infOf (decide (0 < b))
  | pinf, pinf => pinf
  | ninf, ninf => pinf
  | pinf, ninf => ninf
  | ninf, pinf => ninf
  | nan, _ => nan
  | fin _, nan => nan
  | pinf, nan => nan
  | ninf, nan => nan

/-- Float `a / b`.  A zero divisor does not trap: `0/0` is `NaN`, and a nonzero
finite value over zero is the infinity of its sign. -/
def fdiv : F64 → F64 → F64
  | fin a, fin b =>
    if b = 0 then (if a = 0 then nan else infOf (decide (a < 0))) else round64 (a / b)
  | fin _, pinf => fin 0
  | fin _, ninf => fin 0
  | pinf, fin b => infOf (decide (b < 0))
  | ninf, fin b => infOf (decide (0 ≤ b))
  | pinf, pinf => nan
  | pinf, ninf => nan
  | ninf, pinf => nan
  | ninf, ninf => nan
  | nan, _ => nan
  | fin _, nan => nan
  | pinf, nan => nan
  | ninf, nan => nan

/-- Float `a < b`; false whenever an operand is `NaN`. -/
def flt : F64 → F64 → Bool
  | fin a, fin b => decide (a < b)
  | fin _, pinf => true
  | ninf, fin _ => true
  | ninf, pinf => true
  | _, _ => false

/-- Float `a > b`. -/
def fgt (a b : F64) : Bool := flt b a

/-- Float `a <= b`; false whenever an operand is `NaN`. -/
def fle : F64 → F64 → Bool
  | fin a, fin b => decide (a ≤ b)
  | fin _, pinf => true
  | ninf, fin _ => true
  | ninf, pinf => true
  | pinf, pinf => true
  | ninf, ninf => true
  | _, _ => false

/-- Float `a == b`; false whenever an operand is `NaN`. -/
def feq : F64 → F64 → Bool
  | fin a, fin b => decide (a = b)
  | pinf, pinf => true
  | ninf, ninf => true
  | _, _ => false

/-- The conversion `float64(n)` of an integer. -/
def ofInt (n : ℤ) : F64 := round64 (n : ℚ)

/-! ## int -/

/-- Two's-complement wrap-around of an exact integer result into Go's 64-bit `int`. -/
def wrap64 (x : ℤ) : ℤ := (x + 2 ^ 63) % 2 ^ 64 - 2 ^ 63

/-! ## Data model -/

/-- Mirror of `type Target struct`. -/
structure Target where
  Host : String
  Port : String
  Name : String
deriving DecidableEq

/-- Mirror of `type Statistics struct`. -/
structure Statistics where
  minTime : F64
  maxTime : F64
  avgTime : F64
  lossPercent : F64
  label : List String
deriving DecidableEq

/-- Mirror of `type tcpingStatus struct` (the spec's ProbeRun). -/
structure tcpingStatus where
  tcping_result : List F64
  sentCount : ℤ
  respondedCount : ℤ
deriving DecidableEq

/-! ## computeResult -/

/-- The constant `float64(^uint(0) >> 1)`. -/
def maxIntF : F64 := ofInt (((2 ^ 64 - 1 : ℕ) >>> 1 : ℕ) : ℤ)

/-- One iteration of the `for _, value := range status.tcping_result` loop, on
the pair of `resultStatus` and the running `sum`. -/
def scanStep (acc : Statistics × F64) (value : F64) : Statistics × F64 :=
  let rs := acc.1
  let rs := if flt value rs.minTime then { rs with minTime := value } else rs
  let rs := if fgt value rs.maxTime then { rs with maxTime := value } else rs
  (rs, fadd acc.2 value)

/-- Mirror of `func computeResult`. -/
def computeResult (status : tcpingStatus) : Statistics :=
  let zero : Statistics := ⟨fin 0, fin 0, fin 0, fin 0, []⟩
  let resultStatus :=
    if status.respondedCount ≠ 0 then
      let init : Statistics := { zero with minTime := maxIntF, maxTime := fneg maxIntF }
      let acc := status.tcping_result.foldl scanStep (init, fin 0)
      { acc.1 with avgTime := fdiv acc.2 (ofInt status.respondedCount) }
    else zero
  { resultStatus with
    lossPercent :=
      fdiv (fmul (fin 100) (ofInt (wrap64 (status.sentCount - status.respondedCount))))
        (ofInt status.sentCount) }

/-! ## Tcping -/

/-- What the network does to one `net.DialTimeout` call: whether `err == nil`,
and the `time.Since(start).Microseconds()` measured around it. -/
structure Attempt where
  success : Bool
  micros : ℤ
deriving DecidableEq

/-- The observable actions of one `Tcping` run; a connection is named by the
index of the attempt that opened it. -/
inductive Action where
  | dial (i : ℕ)
  | logFailed (i : ℕ)
  | logTime (i : ℕ)
  | sleep (seconds : ℤ)
  | logStatus
  | close (i : ℕ)
deriving DecidableEq

/-- State of a `Tcping` call while its loop runs: `status`, the stack of
pending `defer conn.Close()` calls (latest first), and the actions so far. -/
structure RunState where
  status : tcpingStatus
  deferred : List ℕ
  trace : List Action
deriving DecidableEq

/-- The expression `float64(time.Since(start).Microseconds()) / 1000.0`. -/
def elapsedMs (micros : ℤ) : F64 := fdiv (ofInt micros) (fin 1000)

/-- Body of the `for i := 0; i < countFlag; i++` loop for iteration `i`. -/
def attemptStep (net : ℕ → Attempt) (intervalFlag : ℤ) (s : RunState) (i : ℕ) : RunState :=
  let status := { s.status with sentCount := wrap64 (s.status.sentCount + 1) }
  let elapsed := elapsedMs (net i).micros
  if !(net i).success then
    { s with status := status, trace := s.trace ++ [Action.dial i, Action.logFailed i] }
  else
    let status :=
      { status with
        respondedCount := wrap64 (status.respondedCount + 1)
        tcping_result := status.tcping_result ++ [elapsed] }
    { status := status
      deferred := i :: s.deferred
      trace := s.trace ++ [Action.dial i, Action.logTime i, Action.sleep intervalFlag] }

/-- The whole attempt loop, from the zero `tcpingStatus`. -/
def attemptLoop (net : ℕ → Attempt) (countFlag intervalFlag : ℤ) : RunState :=
  (List.range countFlag.toNat).foldl (attemptStep net intervalFlag) ⟨⟨[], 0, 0⟩, [], []⟩

/-- Mirror of `func Tcping`; `net` is the behaviour of the network during the
call (it is where `connectTimeoutFlag` takes effect). -/
def Tcping (t : Target) (countFlag _connectTimeoutFlag intervalFlag : ℤ)
    (net : ℕ → Attempt) : Statistics :=
  let label : List String := (([] ++ [t.Host]) ++ [t.Port]) ++ [t.Name]
  let s := attemptLoop net countFlag intervalFlag
  { computeResult s.status with label := label }

/-- The actions of a whole `Tcping` call: the loop, the summary log line, and on
return the deferred `conn.Close()` calls, last deferred first. -/
def TcpingTrace (countFlag intervalFlag : ℤ) (net : ℕ → Attempt) : List Action :=
  let s := attemptLoop net countFlag intervalFlag
  s.trace ++ [Action.logStatus] ++ s.deferred.map Action.close

/-! ## Collect: metric emission -/

/-- One constant metric sent on `ch`. -/
structure Sample where
  name : String
  value : F64
  labels : List String
deriving DecidableEq

/-- The variable labels every descriptor of `NewMetrics` is built with. -/
def tcpingMetricsLabels : List String := ["host", "port", "name"]

/-- The call `prometheus.MustNewConstMetric(c.tcpingMetrics[name], GaugeValue, value, labels...)`;
`none` is its panic when the number of label values differs from the descriptor's. -/
def MustNewConstMetric (name : String) (value : F64) (labels : List String) : Option Sample :=
  if labels.length = tcpingMetricsLabels.length then some ⟨name, value, labels⟩ else none

/-- Body of `for result := range results` in `Collect`: the samples sent for one result. -/
def emit (result : Statistics) : Option (List Sample) :=
  let tcpingMetricsLabels := result.label
  if feq result.lossPercent (fin 100) then do
    let loss ← MustNewConstMetric "tcping_loss_ratio" result.lossPercent tcpingMetricsLabels
    pure [loss]
  else do
    let loss ← MustNewConstMetric "tcping_loss_ratio" result.lossPercent tcpingMetricsLabels
    let best ← MustNewConstMetric "tcping_rtt_best_ms" result.minTime tcpingMetricsLabels
    let worst ← MustNewConstMetric "tcping_rtt_worst_ms" result.maxTime tcpingMetricsLabels
    let mean ← MustNewConstMetric "tcping_rtt_mean_ms" result.avgTime tcpingMetricsLabels
    pure [loss, best, worst, mean]


/-! ## Notions used in the statements -/

/-- The rational `q` lies on the binary64 grid (exponent range unbounded above):
an integer of fewer than 54 bits times a power of two not below `2^-1074`. -/
def Representable (q : ℚ) : Prop :=
  ∃ m e : ℤ, |m| < 2 ^ 53 ∧ -1074 ≤ e ∧ q = (m : ℚ) * pow2 e

/-- The float64 sum of a sequence, accumulated in sequence order from `0.0`
(the `sum += value` of `computeResult`). -/
def fsum (l : List F64) : F64 := l.foldl fadd (fin 0)

/-- The rational a finite float denotes (`0` for the non-finite ones). -/
def F64.toRat : F64 → ℚ
  | fin q => q
  | _ => 0

/-- A latency as `Tcping` records it: `elapsedMs` of an `int64` count of microseconds. -/
def IsRecorded (v : F64) : Prop :=
  ∃ us : ℤ, -2 ^ 63 ≤ us ∧ us < 2 ^ 63 ∧ v = elapsedMs us

/-! ## The spec's scenarios, as ProbeRuns -/

/-- Scenario A: 3 of 3 attempts answered, in 10, 12 and 11 ms. -/
def scenarioA : tcpingStatus := ⟨[fin 10, fin 12, fin 11], 3, 3⟩

/-- Scenario C: 2 of 3 attempts answered, in 20 and 30 ms. -/
def scenarioC : tcpingStatus := ⟨[fin 20, fin 30], 3, 2⟩

/-- Ten attempts, each answered in 100 µs (a recorded latency of `0.1` ms). -/
def tenTenths : tcpingStatus := ⟨List.replicate 10 (elapsedMs 100), 10, 10⟩

/-- A network on which every dial fails after 1 ms. -/
def deadNet : ℕ → Attempt := fun _ => ⟨false, 1000⟩

/-- A network on which every dial succeeds after 1 ms. -/
def liveNet : ℕ → Attempt := fun _ => ⟨true, 1000⟩

/-- A target to run the scenarios against. -/
def exampleTarget : Target := ⟨"example.org", "443", "web"⟩

/-- The indices of the attempts dialled in a trace, in order. -/
def dialsOf (tr : List Action) : List ℕ :=
  tr.filterMap fun a => match a with
    | Action.dial i => some i
    | _ => none

/-- A network on which the second dial (attempt 1) times out after 3 s and the
others answer in 20 ms and 30 ms: the spec's scenario C. -/
def lossyNet : ℕ → Attempt := fun i =>
  if i = 0 then ⟨true, 20000⟩ else if i = 1 then ⟨false, 3000000⟩ else ⟨true, 30000⟩

/-- Three attempts, each answered in 100 µs. -/
def threeTenths : tcpingStatus := ⟨List.replicate 3 (elapsedMs 100), 3, 3⟩

/-- Two attempts, answered in 134 µs and 106 µs: the float64 sum of the two recorded
latencies is rounded. -/
def twoDials : tcpingStatus := ⟨[elapsedMs 134, elapsedMs 106], 2, 2⟩

/-- Three attempts, answered in 225 µs, 130 µs and 71 µs. -/
def threeDials : tcpingStatus := ⟨[elapsedMs 225, elapsedMs 130, elapsedMs 71], 3, 3⟩

/-! ## Collect: fan-out over the targets, fan-in of the results

`Collect` starts one goroutine per target (`wg.Add(1)` before each), each of which
calls `Tcping`, sends the result on the channel `results` (buffered, capacity
`len(config.Targets)`) and then runs its deferred `wg.Done()`; a further goroutine
waits for the WaitGroup and closes the channel; the `for result := range results`
loop receives until the channel is closed and drained.  The interleaving is chosen
by the scheduler: it is modelled as a list of events, each enabled or not in a state. -/

/-- State of the fan-out once every goroutine is started. -/
structure FanState where
  /-- Goroutines that have not sent yet, with the position of their target in the configuration. -/
  pending : List (ℕ × Target)
  /-- Goroutines that have sent and have not yet run `wg.Done()`. -/
  sentNotDone : ℕ
  /-- The WaitGroup counter. -/
  wg : ℕ
  /-- Contents of the channel `results`, oldest first. -/
  results : List Statistics
  /-- The channel has been closed. -/
  closed : Bool
  /-- The results the range loop has received, in order. -/
  received : List Statistics
  /-- The range loop has ended. -/
  finished : Bool
  /-- A goroutine has panicked (send on a closed channel, negative WaitGroup counter). -/
  panicked : Bool
deriving DecidableEq

/-- The scheduler's choices. -/
inductive FanEvent where
  /-- The `i`-th pending goroutine returns from `Tcping` and sends on `results`. -/
  | send (i : ℕ)
  /-- A goroutine that has sent runs its deferred `wg.Done()`. -/
  | done
  /-- The closer returns from `wg.Wait()` and runs `close(results)`. -/
  | close
  /-- The range loop receives the oldest result in the channel. -/
  | recv
  /-- The range loop finds the channel closed and empty, and ends. -/
  | exit
deriving DecidableEq

/-- One scheduling step; `none` when the event is not enabled (a blocked send, receive
or wait) in state `s`.  `probe` is the `Tcping` call of a goroutine, `cap` the
capacity of the channel. -/
def fanStep (probe : ℕ × Target → Statistics) (cap : ℕ) (s : FanState) :
    FanEvent → Option FanState
  | FanEvent.send i =>
    if s.panicked then none else
    match s.pending[i]? with
    | none => none
    | some job =>
      if s.closed then some { s with panicked := true }
      else if s.results.length < cap then
        some { s with
          pending := s.pending.eraseIdx i
          sentNotDone := s.sentNotDone + 1
          results := s.results ++ [probe job] }
      else none
  | FanEvent.done =>
    if s.panicked then none
    else if s.sentNotDone = 0 then none
    else if s.wg = 0 then some { s with panicked := true }
    else some { s with sentNotDone := s.sentNotDone - 1, wg := s.wg - 1 }
  | FanEvent.close =>
    if s.panicked then none
    else if s.wg = 0 ∧ s.closed = false then some { s with closed := true } else none
  | FanEvent.recv =>
    if s.panicked then none
    else if s.finished then none
    else match s.results with
      | [] => none
      | r :: rest => some { s with results := rest, received := s.received ++ [r] }
  | FanEvent.exit =>
    if s.panicked then none
    else if s.finished = false ∧ s.results = [] ∧ s.closed = true then
      some { s with finished := true }
    else none

/-- Run a schedule; `none` when one of its events is not enabled where it stands. -/
def fanRun (probe : ℕ × Target → Statistics) (cap : ℕ) :
    FanState → List FanEvent → Option FanState
  | s, [] => some s
  | s, ev :: evs =>
    match fanStep probe cap s ev with
    | none => none
    | some s' => fanRun probe cap s' evs

/-- The state in which the range loop starts: one goroutine per target, the
WaitGroup counter at `len(config.Targets)`, the channel empty and open. -/
def fanInit (targets : List Target) : FanState :=
  ⟨targets.enum, 0, targets.length, [], false, [], false, false⟩

/-- The part of `Collect` after the configuration is parsed, under a schedule: the state
it reaches.  `net k` is the behaviour of the network towards the `k`-th target. -/
def CollectFan (targets : List Target) (countFlag connectTimeoutFlag intervalFlag : ℤ)
    (net : ℕ → ℕ → Attempt) (schedule : List FanEvent) : Option FanState :=
  fanRun (fun job => Tcping job.2 countFlag connectTimeoutFlag intervalFlag (net job.1))
    targets.length (fanInit targets) schedule

/-- What is left to do in a fan state: bounds the length of any schedule from it. -/
def fanMeasure (s : FanState) : ℕ :=
  3 * s.pending.length + s.sentNotDone + s.results.length
    + (if s.closed then 0 else 1) + (if s.finished then 0 else 1)
    + (if s.panicked then 0 else 1)

/-- The invariant of the fan-out: nobody has panicked, the WaitGroup counts the
goroutines that have not run `wg.Done()`, the channel is closed only at counter zero,
the loop has ended only on a closed empty channel, and the results received, in the
channel and still to be produced are together those of all the goroutines. -/
def FanInv (probe : ℕ × Target → Statistics) (cap : ℕ) (all : List Statistics)
    (s : FanState) : Prop :=
  s.panicked = false
  ∧ s.wg = s.pending.length + s.sentNotDone
  ∧ (s.closed = true → s.wg = 0)
  ∧ (s.finished = true → s.results = [] ∧ s.closed = true)
  ∧ (s.received ++ s.results ++ s.pending.map probe).Perm all
  ∧ all.length = cap

/-- Two configured targets. -/
def twoTargets : List Target := [⟨"a.example", "80", "first"⟩, ⟨"b.example", "443", "second"⟩]

/-- A network on which the first target loses the second of its dials and the
second target answers none. -/
def twoNets : ℕ → ℕ → Attempt := fun k => if k = 0 then lossyNet else deadNet

/-- A schedule in which the goroutine of the second target sends first. -/
def twoSchedule : List FanEvent :=
  [FanEvent.send 1, FanEvent.send 0, FanEvent.recv, FanEvent.done, FanEvent.done,
   FanEvent.close, FanEvent.recv, FanEvent.exit]

/-- The state `twoSchedule` ends in. -/
def twoFinal : FanState :=
  { pending := []
    sentNotDone := 0
    wg := 0
    results := []
    closed := true
    received :=
      [⟨fin 0, fin 0, fin 0, fin 100, ["b.example", "443", "second"]⟩,
       ⟨fin 20, fin 30, fin 25, fin (4691249611844267 / 140737488355328),
        ["a.example", "80", "first"]⟩]
    finished := true
    panicked := false }

/-! ## Collect: serialisation of concurrent scrapes

`Collect` begins with `c.mutex.Lock()` and `defer c.mutex.Unlock()`; between the two it
reads and parses the configuration (`log.Fatalf`, which exits the process, on failure),
probes, and sends the samples.  Scrape requests are served concurrently; the model
lets the scheduler interleave them.  The semantics of `sync.Mutex` is taken as given:
`Lock` returns only when the mutex is unlocked and locks it, `Unlock` unlocks it. -/

/-- Where one call of `Collect` stands. -/
inductive Phase where
  /-- Called; at `c.mutex.Lock()`, not yet returned from it. -/
  | waiting
  /-- Past `Lock`: reading and parsing the configuration. -/
  | loading
  /-- Configuration parsed: probing the targets and sending the samples. -/
  | collecting
  /-- Returned; the deferred `c.mutex.Unlock()` has run. -/
  | returned
deriving DecidableEq

/-- A call is between acquiring and releasing the mutex. -/
def Phase.active : Phase → Bool
  | Phase.loading => true
  | Phase.collecting => true
  | _ => false

/-- The scrape requests of the process, the exporter's mutex, and whether the process
has exited. -/
structure ScrapeState where
  /-- The calls of `Collect` so far, by order of arrival. -/
  calls : List Phase
  /-- State of `c.mutex`. -/
  locked : Bool
  /-- The process has exited (`log.Fatalf`, or the runtime's fatal error on unlocking
  an unlocked mutex). -/
  exited : Bool
  /-- The calls that sent a sample, in the order of the samples. -/
  samples : List ℕ
deriving DecidableEq

/-- The scheduler's choices. -/
inductive ScrapeEvent where
  /-- A new scrape request calls `Collect`. -/
  | arrive
  /-- Call `i` returns from `c.mutex.Lock()`. -/
  | lock (i : ℕ)
  /-- Call `i` has read and parsed the configuration. -/
  | loaded (i : ℕ)
  /-- Call `i` fails to read or parse the configuration: `log.Fatalf`. -/
  | fatal (i : ℕ)
  /-- Call `i` sends a sample on `ch`. -/
  | sample (i : ℕ)
  /-- Call `i` returns, running the deferred `c.mutex.Unlock()`. -/
  | unlock (i : ℕ)
deriving DecidableEq

/-- One scheduling step; `none` when the event is not enabled in `s` (in particular a
`Lock` that blocks). -/
def scrapeStep (s : ScrapeState) : ScrapeEvent → Option ScrapeState
  | ScrapeEvent.arrive =>
    if s.exited then none else some { s with calls := s.calls ++ [Phase.waiting] }
  | ScrapeEvent.lock i =>
    if s.exited then none
    else if s.calls[i]? = some Phase.waiting ∧ s.locked = false then
      some { s with calls := s.calls.set i Phase.loading, locked := true }
    else none
  | ScrapeEvent.loaded i =>
    if s.exited then none
    else if s.calls[i]? = some Phase.loading then
      some { s with calls := s.calls.set i Phase.collecting }
    else none
  | ScrapeEvent.fatal i =>
    if s.exited then none
    else if s.calls[i]? = some Phase.loading then some { s with exited := true }
    else none
  | ScrapeEvent.sample i =>
    if s.exited then none
    else if s.calls[i]? = some Phase.collecting then
      some { s with samples := s.samples ++ [i] }
    else none
  | ScrapeEvent.unlock i =>
    if s.exited then none
    else if s.calls[i]? = some Phase.collecting then
      (if s.locked then some { s with calls := s.calls.set i Phase.returned, locked := false }
       else some { s with exited := true })
    else none

/-- Run a schedule; `none` when one of its events is not enabled where it stands. -/
def scrapeRun : ScrapeState → List ScrapeEvent → Option ScrapeState
  | s, [] => some s
  | s, ev :: evs =>
    match scrapeStep s ev with
    | none => none
    | some s' => scrapeRun s' evs

/-- The exporter as `NewMetrics` builds it: no call yet, the mutex unlocked. -/
def scrapeInit : ScrapeState := ⟨[], false, false, []⟩

/-- The number of calls between acquiring and releasing the mutex. -/
def ScrapeState.activeCount (s : ScrapeState) : ℕ := s.calls.countP Phase.active

/-- Two overlapping scrapes: the second arrives while the first holds the mutex. -/
def twoScrapes : List ScrapeEvent :=
  [ScrapeEvent.arrive, ScrapeEvent.lock 0, ScrapeEvent.arrive, ScrapeEvent.loaded 0,
   ScrapeEvent.sample 0, ScrapeEvent.sample 0, ScrapeEvent.unlock 0, ScrapeEvent.lock 1,
   ScrapeEvent.loaded 1, ScrapeEvent.sample 1]

/-- The state `twoScrapes` ends in. -/
def twoScrapesEnd : ScrapeState :=
  ⟨[Phase.returned, Phase.collecting], true, false, [0, 0, 1]⟩
/-! ## Facts about binary64 rounding -/

theorem pow2_eq_zpow (e : ℤ) : pow2 e = (2 : ℚ) ^ e := by
  unfold pow2
  split_ifs with h
  · obtain ⟨n, rfl⟩ := Int.eq_ofNat_of_zero_le h
    simp
  · obtain ⟨n, hn⟩ := Int.eq_ofNat_of_zero_le (show 0 ≤ -e by omega)
    have he : e = -(n : ℤ) := by omega
    subst he
    simp

theorem pow2_pos (e : ℤ) : 0 < pow2 e := by
  rw [pow2_eq_zpow]; positivity

theorem pow2_add (a b : ℤ) : pow2 (a + b) = pow2 a * pow2 b := by
  simp only [pow2_eq_zpow]
  exact zpow_add₀ (by norm_num) a b

theorem pow2_le_pow2 {a b : ℤ} (h : a ≤ b) : pow2 a ≤ pow2 b := by
  simp only [pow2_eq_zpow]
  exact zpow_le_zpow_right₀ (by norm_num) h

theorem pow2_lt_pow2 {a b : ℤ} (h : a < b) : pow2 a < pow2 b := by
  simp only [pow2_eq_zpow]
  exact zpow_lt_zpow_right₀ (by norm_num) h

theorem pow2_natCast (n : ℕ) : pow2 (n : ℤ) = (2 : ℚ) ^ n := by
  rw [pow2_eq_zpow, zpow_natCast]

theorem log2Aux_spec : ∀ fuel n : ℕ, n ≤ fuel → 1 ≤ n →
    2 ^ log2Aux fuel n ≤ n ∧ n < 2 ^ (log2Aux fuel n + 1) := by
  intro fuel
  induction fuel with
  | zero => intro n h1 h2; omega
  | succ fuel ih =>
    intro n hn h1
    unfold log2Aux
    split_ifs with h2
    · have := ih (n / 2) (by omega) (by omega)
      obtain ⟨a, b⟩ := this
      rw [pow_succ]
      constructor
      · omega
      · rw [pow_succ] at b ⊢
        omega
    · simp; omega

theorem log2n_spec (n : ℕ) (h : 1 ≤ n) : 2 ^ log2n n ≤ n ∧ n < 2 ^ (log2n n + 1) :=
  log2Aux_spec n n le_rfl h

theorem pow2_sub_nat (a b : ℕ) : pow2 ((a : ℤ) - (b : ℤ)) = (2 : ℚ) ^ a / (2 : ℚ) ^ b := by
  rw [pow2_eq_zpow, zpow_sub₀ (by norm_num), zpow_natCast, zpow_natCast]

theorem abs_eq_natAbs_div_den (x : ℚ) : |x| = (x.num.natAbs : ℚ) / (x.den : ℚ) := by
  conv_lhs => rw [← Rat.num_div_den x]
  rw [abs_div, Nat.abs_cast, Nat.cast_natAbs, Int.cast_abs]

theorem ilog2_spec (x : ℚ) (hx : x ≠ 0) :
    pow2 (ilog2 x) ≤ |x| ∧ |x| < pow2 (ilog2 x + 1) := by
  have hn : 1 ≤ x.num.natAbs := by
    have : x.num ≠ 0 := Rat.num_ne_zero.mpr hx
    omega
  have hd : 1 ≤ x.den := x.den_pos
  obtain ⟨na, nb⟩ := log2n_spec _ hn
  obtain ⟨da, db⟩ := log2n_spec _ hd
  have hdq : (0 : ℚ) < (x.den : ℚ) := by exact_mod_cast hd
  have na' : (2 : ℚ) ^ log2n x.num.natAbs ≤ (x.num.natAbs : ℚ) := by exact_mod_cast na
  have nb' : (x.num.natAbs : ℚ) < (2 : ℚ) ^ (log2n x.num.natAbs + 1) := by exact_mod_cast nb
  have da' : (2 : ℚ) ^ log2n x.den ≤ (x.den : ℚ) := by exact_mod_cast da
  have db' : (x.den : ℚ) < (2 : ℚ) ^ (log2n x.den + 1) := by exact_mod_cast db
  have habs := abs_eq_natAbs_div_den x
  unfold ilog2
  simp only
  split_ifs with h
  · refine ⟨?_, by simpa using h⟩
    have e1 : (log2n x.num.natAbs : ℤ) - (log2n x.den : ℤ) - 1
        = (log2n x.num.natAbs : ℤ) - ((log2n x.den + 1 : ℕ) : ℤ) := by push_cast; ring
    rw [e1, pow2_sub_nat, habs]
    exact div_le_div₀ (by positivity) na' hdq db'.le
  · refine ⟨not_lt.mp h, ?_⟩
    have e1 : (log2n x.num.natAbs : ℤ) - (log2n x.den : ℤ) + 1
        = ((log2n x.num.natAbs + 1 : ℕ) : ℤ) - (log2n x.den : ℤ) := by push_cast; ring
    rw [e1, pow2_sub_nat, habs]
    exact div_lt_div₀ nb' da' (by positivity) (by positivity)

theorem abs_lt_pow2_ilog2 (x : ℚ) : |x| < pow2 (ilog2 x + 1) := by
  by_cases hx : x = 0
  · subst hx; simpa using pow2_pos _
  · exact (ilog2_spec x hx).2

theorem floor_le_rne (t : ℚ) : ⌊t⌋ ≤ rne t := by
  unfold rne
  simp only
  split_ifs <;> omega

theorem rne_le_ceil (t : ℚ) : rne t ≤ ⌈t⌉ := by
  unfold rne
  simp only
  have hc : ⌈t⌉ ≤ ⌊t⌋ + 1 := Int.ceil_le_floor_add_one t
  have hfc : ⌊t⌋ ≤ ⌈t⌉ := Int.floor_le_ceil t
  by_cases hlt : t - ⌊t⌋ < 1 / 2
  · rw [if_pos hlt]; exact hfc
  · have hne : (⌊t⌋ : ℚ) ≠ t := by
      intro h
      rw [h] at hlt
      norm_num at hlt
    have hlt2 : ⌊t⌋ < ⌈t⌉ := by
      rcases lt_or_eq_of_le hfc with h | h
      · exact h
      · exfalso
        apply hne
        have h1 := Int.floor_le t
        have h2 := Int.le_ceil t
        rw [← h] at h2
        exact le_antisymm h1 h2
    rw [if_neg hlt]
    split_ifs <;> omega

theorem rne_intCast (k : ℤ) : rne (k : ℚ) = k := by
  unfold rne
  simp

theorem le_rne_of_le {k : ℤ} {t : ℚ} (h : (k : ℚ) ≤ t) : k ≤ rne t :=
  le_trans (Int.le_floor.mpr h) (floor_le_rne t)

theorem rne_le_of_le {k : ℤ} {t : ℚ} (h : t ≤ (k : ℚ)) : rne t ≤ k :=
  le_trans (rne_le_ceil t) (Int.ceil_le.mpr h)

theorem ulpExp_ge (x : ℚ) : -1074 ≤ ulpExp x := by
  unfold ulpExp
  have := le_max_right (ilog2 x) (-1022)
  omega

theorem pow2_zero : pow2 0 = 1 := by simp [pow2_eq_zpow]

theorem pow2_ofNat_mul (n : ℕ) (e : ℤ) : (2 : ℚ) ^ n * pow2 e = pow2 (n + e) := by
  rw [pow2_add, pow2_natCast]

theorem representable_grid {f : ℚ} (hf : Representable f) (e : ℤ) :
    (∃ j : ℤ, f = (j : ℚ) * pow2 e) ∨ (-1074 < e ∧ |f| < pow2 (e + 52)) := by
  obtain ⟨m, g, hm, hg, rfl⟩ := hf
  by_cases h : e ≤ g
  · left
    obtain ⟨n, hn⟩ := Int.eq_ofNat_of_zero_le (show 0 ≤ g - e by omega)
    refine ⟨m * 2 ^ n, ?_⟩
    have hge : g = (n : ℤ) + e := by omega
    rw [hge, ← pow2_ofNat_mul]
    push_cast
    ring
  · right
    refine ⟨by omega, ?_⟩
    rw [abs_mul, abs_of_pos (pow2_pos g)]
    have hm' : |(m : ℚ)| < 2 ^ 53 := by
      have : ((|m| : ℤ) : ℚ) < ((2 ^ 53 : ℤ) : ℚ) := Int.cast_lt.mpr hm
      simpa using this
    calc |(m : ℚ)| * pow2 g < 2 ^ 53 * pow2 g :=
          mul_lt_mul_of_pos_right hm' (pow2_pos g)
      _ = pow2 ((53 : ℕ) + g) := pow2_ofNat_mul 53 g
      _ ≤ pow2 (e + 52) := pow2_le_pow2 (by push_cast; omega)

theorem ulpExp_add_of_gt {x : ℚ} (h : -1074 < ulpExp x) : ulpExp x + 52 = ilog2 x := by
  unfold ulpExp at h ⊢
  rcases max_cases (ilog2 x) (-1022) with ⟨h1, _⟩ | ⟨h1, _⟩
  · rw [h1]; ring
  · rw [h1] at h; omega

theorem roundQ_zero : roundQ 0 = 0 := by
  unfold roundQ
  simp [rne]

theorem roundQ_le_of_le {f x : ℚ} (hf : Representable f) (h : x ≤ f) : roundQ x ≤ f := by
  have hu := pow2_pos (ulpExp x)
  rcases representable_grid hf (ulpExp x) with ⟨j, hj⟩ | ⟨he, hsmall⟩
  · unfold roundQ
    rw [hj]
    apply mul_le_mul_of_nonneg_right _ hu.le
    have : rne (x / pow2 (ulpExp x)) ≤ j := by
      apply rne_le_of_le
      rw [div_le_iff₀ hu, ← hj]
      exact h
    exact_mod_cast this
  · by_cases hx : x = 0
    · subst hx; rw [roundQ_zero]; exact h
    · have hlog := (ilog2_spec x hx).1
      rw [ulpExp_add_of_gt he] at hsmall
      have hfx : |f| < |x| := lt_of_lt_of_le hsmall hlog
      have hneg : x < 0 := by
        by_contra hcon
        push_neg at hcon
        rw [abs_of_nonneg hcon] at hfx
        exact absurd (lt_of_le_of_lt (le_trans h (le_abs_self f)) hfx) (lt_irrefl _)
      rw [abs_of_neg hneg] at hlog
      have hk : rne (x / pow2 (ulpExp x)) ≤ -(2 ^ 52 : ℤ) := by
        apply rne_le_of_le
        rw [div_le_iff₀ hu]
        push_cast
        have : (2 : ℚ) ^ 52 * pow2 (ulpExp x) = pow2 (ilog2 x) := by
          rw [pow2_ofNat_mul, ← ulpExp_add_of_gt he]; congr 1; push_cast; ring
        linarith
      have hk' : (rne (x / pow2 (ulpExp x)) : ℚ) ≤ -(2 ^ 52 : ℚ) := by exact_mod_cast hk
      have h1 : roundQ x ≤ -(2 ^ 52 : ℚ) * pow2 (ulpExp x) := by
        unfold roundQ
        exact mul_le_mul_of_nonneg_right hk' hu.le
      have h2 : (2 : ℚ) ^ 52 * pow2 (ulpExp x) = pow2 (ilog2 x) := by
        rw [pow2_ofNat_mul, ← ulpExp_add_of_gt he]; congr 1; push_cast; ring
      have h3 : -|f| ≤ f := neg_abs_le f
      linarith

theorem le_roundQ_of_le {f x : ℚ} (hf : Representable f) (h : f ≤ x) : f ≤ roundQ x := by
  have hu := pow2_pos (ulpExp x)
  rcases representable_grid hf (ulpExp x) with ⟨j, hj⟩ | ⟨he, hsmall⟩
  · unfold roundQ
    rw [hj]
    apply mul_le_mul_of_nonneg_right _ hu.le
    have : j ≤ rne (x / pow2 (ulpExp x)) := by
      apply le_rne_of_le
      rw [le_div_iff₀ hu, ← hj]
      exact h
    exact_mod_cast this
  · by_cases hx : x = 0
    · subst hx; rw [roundQ_zero]; exact h
    · have hlog := (ilog2_spec x hx).1
      rw [ulpExp_add_of_gt he] at hsmall
      have hfx : |f| < |x| := lt_of_lt_of_le hsmall hlog
      have hpos : 0 < x := by
        by_contra hcon
        push_neg at hcon
        rw [abs_of_nonpos hcon] at hfx
        have h3 : -|f| ≤ f := neg_abs_le f
        linarith
      rw [abs_of_pos hpos] at hlog
      have h2 : (2 : ℚ) ^ 52 * pow2 (ulpExp x) = pow2 (ilog2 x) := by
        rw [pow2_ofNat_mul, ← ulpExp_add_of_gt he]; congr 1; push_cast; ring
      have hk : (2 ^ 52 : ℤ) ≤ rne (x / pow2 (ulpExp x)) := by
        apply le_rne_of_le
        rw [le_div_iff₀ hu]
        push_cast
        linarith
      have hk' : (2 ^ 52 : ℚ) ≤ (rne (x / pow2 (ulpExp x)) : ℚ) := by exact_mod_cast hk
      have h1 : (2 ^ 52 : ℚ) * pow2 (ulpExp x) ≤ roundQ x := by
        unfold roundQ
        exact mul_le_mul_of_nonneg_right hk' hu.le
      have h3 : f ≤ |f| := le_abs_self f
      linarith

theorem roundQ_of_representable {f : ℚ} (hf : Representable f) : roundQ f = f :=
  le_antisymm (roundQ_le_of_le hf le_rfl) (le_roundQ_of_le hf le_rfl)

theorem representable_intCast {n : ℤ} (h : |n| ≤ 2 ^ 53) : Representable (n : ℚ) := by
  rcases lt_or_eq_of_le h with h1 | h1
  · exact ⟨n, 0, h1, by norm_num, by rw [pow2_zero, mul_one]⟩
  · rcases abs_eq (by norm_num : (0 : ℤ) ≤ 2 ^ 53) |>.mp h1 with h2 | h2
    · refine ⟨2 ^ 52, 1, by norm_num, by norm_num, ?_⟩
      rw [h2, pow2_eq_zpow]; norm_num
    · refine ⟨-2 ^ 52, 1, by norm_num, by norm_num, ?_⟩
      rw [h2, pow2_eq_zpow]; norm_num

theorem representable_mul_pow2 {m e : ℤ} (hm : |m| ≤ 2 ^ 53) (he : -1074 ≤ e) :
    Representable ((m : ℚ) * pow2 e) := by
  rcases lt_or_eq_of_le hm with h1 | h1
  · exact ⟨m, e, h1, he, rfl⟩
  · rcases abs_eq (by norm_num : (0 : ℤ) ≤ 2 ^ 53) |>.mp h1 with h2 | h2
    · refine ⟨2 ^ 52, e + 1, by norm_num, by omega, ?_⟩
      rw [h2, pow2_add, pow2_eq_zpow 1]; push_cast; ring
    · refine ⟨-2 ^ 52, e + 1, by norm_num, by omega, ?_⟩
      rw [h2, pow2_add, pow2_eq_zpow 1]; push_cast; ring

theorem abs_div_ulp_lt (x : ℚ) : |x / pow2 (ulpExp x)| < 2 ^ 53 := by
  have hu := pow2_pos (ulpExp x)
  rw [abs_div, abs_of_pos hu, div_lt_iff₀ hu]
  have h1 := abs_lt_pow2_ilog2 x
  have h2 : ilog2 x + 1 ≤ (53 : ℕ) + ulpExp x := by
    unfold ulpExp
    have := le_max_left (ilog2 x) (-1022)
    push_cast
    omega
  calc |x| < pow2 (ilog2 x + 1) := h1
    _ ≤ pow2 ((53 : ℕ) + ulpExp x) := pow2_le_pow2 h2
    _ = 2 ^ 53 * pow2 (ulpExp x) := (pow2_ofNat_mul 53 _).symm

theorem representable_roundQ (x : ℚ) : Representable (roundQ x) := by
  unfold roundQ
  apply representable_mul_pow2 _ (ulpExp_ge x)
  have h := abs_lt.mp (abs_div_ulp_lt x)
  rw [abs_le]
  constructor
  · apply le_rne_of_le
    push_cast
    exact h.1.le
  · apply rne_le_of_le
    push_cast
    exact h.2.le

theorem round64_of_lt {x : ℚ} (h : |roundQ x| < pow2 1024) : round64 x = fin (roundQ x) := by
  unfold round64
  rw [if_neg (not_le.mpr h)]

theorem abs_roundQ_le {f x : ℚ} (hf : Representable f) (h : |x| ≤ f) : |roundQ x| ≤ f := by
  have hnf : Representable (-f) := by
    obtain ⟨m, e, hm, he, rfl⟩ := hf
    exact ⟨-m, e, by simpa using hm, he, by push_cast; ring⟩
  have h' := abs_le.mp h
  exact abs_le.mpr ⟨le_roundQ_of_le hnf h'.1, roundQ_le_of_le hf h'.2⟩

theorem representable_pow2 {e : ℤ} (he : -1074 ≤ e) : Representable (pow2 e) :=
  ⟨1, e, by norm_num, he, by simp⟩

theorem round64_of_abs_le {x : ℚ} {e : ℤ} (he : -1074 ≤ e) (he' : e < 1024)
    (h : |x| ≤ pow2 e) : round64 x = fin (roundQ x) :=
  round64_of_lt (lt_of_le_of_lt (abs_roundQ_le (representable_pow2 he) h) (pow2_lt_pow2 he'))

theorem round64_of_representable {f : ℚ} (hf : Representable f) (h : |f| < pow2 1024) :
    round64 f = fin f := by
  have := roundQ_of_representable hf
  rw [round64_of_lt (by rwa [this]), this]

theorem ofInt_of_abs_le {n : ℤ} (h : |n| ≤ 2 ^ 53) : ofInt n = fin (n : ℚ) := by
  unfold ofInt
  apply round64_of_representable (representable_intCast h)
  have h1 : |(n : ℚ)| ≤ 2 ^ 53 := by
    have : ((|n| : ℤ) : ℚ) ≤ ((2 ^ 53 : ℤ) : ℚ) := Int.cast_le.mpr h
    simpa using this
  have h2 : (2 : ℚ) ^ 53 < pow2 1024 := by
    rw [← pow2_natCast]; exact pow2_lt_pow2 (by norm_num)
  linarith

/-! ## computeResult -/

theorem wrap64_of_range {x : ℤ} (h1 : -2 ^ 63 ≤ x) (h2 : x < 2 ^ 63) : wrap64 x = x := by
  unfold wrap64
  rw [Int.emod_eq_of_lt (by omega) (by omega)]
  ring

theorem computeResult_lossPercent_eq (st : tcpingStatus) :
    (computeResult st).lossPercent
      = fdiv (fmul (fin 100) (ofInt (wrap64 (st.sentCount - st.respondedCount))))
          (ofInt st.sentCount) := rfl

theorem fdiv_fin_of_ne {a b : ℚ} (hb : b ≠ 0) : fdiv (fin a) (fin b) = round64 (a / b) := by
  simp [fdiv, hb]

theorem round64_intCast {n : ℤ} (h : |n| ≤ 2 ^ 53) : round64 (n : ℚ) = fin (n : ℚ) :=
  ofInt_of_abs_le h

theorem lossPercent_exact (st : tcpingStatus)
    (hs : 0 < st.sentCount) (hr0 : 0 ≤ st.respondedCount)
    (hrs : st.respondedCount ≤ st.sentCount) (hbound : 100 * st.sentCount ≤ 2 ^ 53) :
    (computeResult st).lossPercent
      = round64 (100 * ((st.sentCount : ℚ) - (st.respondedCount : ℚ)) / (st.sentCount : ℚ)) := by
  rw [computeResult_lossPercent_eq, wrap64_of_range (by omega) (by omega),
    ofInt_of_abs_le (by rw [abs_le]; constructor <;> omega),
    ofInt_of_abs_le (by rw [abs_le]; constructor <;> omega)]
  have h100 : fmul (fin 100) (fin ((st.sentCount - st.respondedCount : ℤ) : ℚ))
      = fin ((100 * (st.sentCount - st.respondedCount) : ℤ) : ℚ) := by
    have := round64_intCast (n := 100 * (st.sentCount - st.respondedCount))
      (by rw [abs_le]; constructor <;> omega)
    simp only [fmul]
    rw [← this]
    push_cast
    rfl
  rw [h100, fdiv_fin_of_ne (by exact_mod_cast hs.ne')]
  push_cast
  rfl

theorem lossPercent_no_response (st : tcpingStatus) (hs : 0 < st.sentCount)
    (hr : st.respondedCount = 0) (hbound : 100 * st.sentCount ≤ 2 ^ 53) :
    (computeResult st).lossPercent = fin 100 := by
  have hsq : (st.sentCount : ℚ) ≠ 0 := by exact_mod_cast hs.ne'
  rw [lossPercent_exact st hs (by omega) (by omega) hbound, hr]
  have : 100 * ((st.sentCount : ℚ) - ((0 : ℤ) : ℚ)) / (st.sentCount : ℚ) = ((100 : ℤ) : ℚ) := by
    field_simp
  rw [this]
  exact round64_intCast (by norm_num)

theorem lossPercent_all_responded (st : tcpingStatus) (hs : 0 < st.sentCount)
    (hr : st.respondedCount = st.sentCount) (hbound : 100 * st.sentCount ≤ 2 ^ 53) :
    (computeResult st).lossPercent = fin 0 := by
  rw [lossPercent_exact st hs (by omega) (by omega) hbound, hr]
  have : 100 * ((st.sentCount : ℚ) - (st.sentCount : ℚ)) / (st.sentCount : ℚ) = ((0 : ℤ) : ℚ) := by
    simp
  rw [this]
  exact round64_intCast (by norm_num)

theorem fdiv_ofInt_exact (S : ℚ) (r : ℤ) (hr : 0 < r) (hr53 : r ≤ 2 ^ 53) :
    fdiv (fin S) (ofInt r) = round64 (S / (r : ℚ)) := by
  rw [ofInt_of_abs_le (by rw [abs_le]; constructor <;> omega),
    fdiv_fin_of_ne (by exact_mod_cast hr.ne')]

theorem foldl_min_le_init (qs : List ℚ) (m0 : ℚ) : qs.foldl min m0 ≤ m0 := by
  induction qs generalizing m0 with
  | nil => exact le_rfl
  | cons q qs ih => exact le_trans (ih (min m0 q)) (min_le_left _ _)

theorem foldl_min_le_mem (qs : List ℚ) (m0 : ℚ) {q : ℚ} (hq : q ∈ qs) : qs.foldl min m0 ≤ q := by
  induction qs generalizing m0 with
  | nil => cases hq
  | cons a qs ih =>
    rcases List.mem_cons.mp hq with rfl | h
    · exact le_trans (foldl_min_le_init qs (min m0 q)) (min_le_right _ _)
    · exact ih (min m0 a) h

theorem foldl_min_mem (qs : List ℚ) (m0 : ℚ) : qs.foldl min m0 = m0 ∨ qs.foldl min m0 ∈ qs := by
  induction qs generalizing m0 with
  | nil => exact Or.inl rfl
  | cons a qs ih =>
    rcases ih (min m0 a) with h | h
    · rcases min_choice m0 a with h' | h'
      · left; rw [List.foldl_cons, h, h']
      · right; rw [List.foldl_cons, h, h']; exact List.mem_cons_self _ _
    · right; exact List.mem_cons_of_mem _ h

theorem le_foldl_max_init (qs : List ℚ) (m0 : ℚ) : m0 ≤ qs.foldl max m0 := by
  induction qs generalizing m0 with
  | nil => exact le_rfl
  | cons q qs ih => exact le_trans (le_max_left _ _) (ih (max m0 q))

theorem mem_le_foldl_max (qs : List ℚ) (m0 : ℚ) {q : ℚ} (hq : q ∈ qs) : q ≤ qs.foldl max m0 := by
  induction qs generalizing m0 with
  | nil => cases hq
  | cons a qs ih =>
    rcases List.mem_cons.mp hq with rfl | h
    · exact le_trans (le_max_right _ _) (le_foldl_max_init qs (max m0 q))
    · exact ih (max m0 a) h

theorem foldl_max_mem (qs : List ℚ) (m0 : ℚ) : qs.foldl max m0 = m0 ∨ qs.foldl max m0 ∈ qs := by
  induction qs generalizing m0 with
  | nil => exact Or.inl rfl
  | cons a qs ih =>
    rcases ih (max m0 a) with h | h
    · rcases max_choice m0 a with h' | h'
      · left; rw [List.foldl_cons, h, h']
      · right; rw [List.foldl_cons, h, h']; exact List.mem_cons_self _ _
    · right; exact List.mem_cons_of_mem _ h

theorem scanStep_fin (rs : Statistics) (sum : F64) (m M q : ℚ)
    (hm : rs.minTime = fin m) (hM : rs.maxTime = fin M) :
    scanStep (rs, sum) (fin q)
      = ({ rs with minTime := fin (min m q), maxTime := fin (max M q) }, fadd sum (fin q)) := by
  unfold scanStep
  simp only [hm, hM, flt, fgt]
  by_cases h1 : q < m <;> by_cases h2 : M < q
  · simp [h1, h2, hM, min_eq_right h1.le, max_eq_right h2.le]
  · simp [h1, h2, hM, hm, min_eq_right h1.le, max_eq_left (not_lt.mp h2)]
  · simp [h1, h2, hM, hm, min_eq_left (not_lt.mp h1), max_eq_right h2.le]
  · have e1 := min_eq_left (not_lt.mp h1)
    have e2 := max_eq_left (not_lt.mp h2)
    simp [h1, h2, e1, e2]
    cases rs
    simp_all

theorem foldl_scanStep_fin (qs : List ℚ) (rs : Statistics) (sum : F64) (m M : ℚ)
    (hm : rs.minTime = fin m) (hM : rs.maxTime = fin M) :
    (qs.map fin).foldl scanStep (rs, sum)
      = ({ rs with minTime := fin (qs.foldl min m), maxTime := fin (qs.foldl max M) },
          (qs.map fin).foldl fadd sum) := by
  induction qs generalizing rs sum m M with
  | nil =>
    cases rs
    simp_all
  | cons q qs ih =>
    rw [List.map_cons, List.foldl_cons, scanStep_fin rs sum m M q hm hM,
      ih _ _ (min m q) (max M q) rfl rfl]
    rfl

theorem maxIntF_eq : maxIntF = fin 9223372036854775808 := by decide!

theorem computeResult_of_fin (qs : List ℚ) (s r : ℤ) (hr : r ≠ 0) :
    computeResult ⟨qs.map fin, s, r⟩
      = { minTime := fin (qs.foldl min 9223372036854775808)
          maxTime := fin (qs.foldl max (-9223372036854775808))
          avgTime := fdiv (fsum (qs.map fin)) (ofInt r)
          lossPercent := fdiv (fmul (fin 100) (ofInt (wrap64 (s - r)))) (ofInt s)
          label := [] } := by
  unfold computeResult
  simp only [hr, ne_eq, not_false_eq_true, if_true, maxIntF_eq, fneg]
  rw [foldl_scanStep_fin qs _ _ 9223372036854775808 (-9223372036854775808) rfl rfl]
  rfl

theorem isRecorded_fin {v : F64} (h : IsRecorded v) :
    ∃ q : ℚ, v = fin q ∧ Representable q ∧ |q| ≤ pow2 54 := by
  obtain ⟨us, h1, h2, rfl⟩ := h
  have hus : |(us : ℚ)| ≤ pow2 63 := by
    have h63 : pow2 63 = ((2 ^ 63 : ℤ) : ℚ) := by rw [pow2_eq_zpow]; norm_num
    have : |us| ≤ 2 ^ 63 := by rw [abs_le]; constructor <;> omega
    have : ((|us| : ℤ) : ℚ) ≤ ((2 ^ 63 : ℤ) : ℚ) := Int.cast_le.mpr this
    rw [h63]
    rwa [Int.cast_abs] at this
  have ha : |roundQ (us : ℚ)| ≤ pow2 63 := abs_roundQ_le (representable_pow2 (by norm_num)) hus
  have hx : |roundQ (us : ℚ) / 1000| ≤ pow2 54 := by
    rw [abs_div]
    have h63 : pow2 63 = 2 ^ 63 := by rw [pow2_eq_zpow]; norm_num
    have h54 : pow2 54 = 2 ^ 54 := by rw [pow2_eq_zpow]; norm_num
    rw [h63] at ha
    rw [h54, div_le_iff₀ (by norm_num)]
    have : |(1000 : ℚ)| = 1000 := by norm_num
    rw [this]
    linarith
  refine ⟨roundQ (roundQ (us : ℚ) / 1000), ?_, representable_roundQ _,
    abs_roundQ_le (representable_pow2 (by norm_num)) hx⟩
  unfold elapsedMs ofInt
  rw [round64_of_abs_le (by norm_num) (by norm_num) hus, fdiv_fin_of_ne (by norm_num),
    round64_of_abs_le (by norm_num) (by norm_num) hx]

theorem recorded_list {l : List F64} (h : ∀ v ∈ l, IsRecorded v) :
    ∃ qs : List ℚ, l = qs.map fin ∧ ∀ q ∈ qs, Representable q ∧ |q| ≤ pow2 54 := by
  induction l with
  | nil => exact ⟨[], rfl, by simp⟩
  | cons v l ih =>
    obtain ⟨qs, rfl, hqs⟩ := ih (fun w hw => h w (List.mem_cons_of_mem _ hw))
    obtain ⟨q, rfl, hq⟩ := isRecorded_fin (h v (List.mem_cons_self _ _))
    refine ⟨q :: qs, rfl, ?_⟩
    intro q' hq'
    rcases List.mem_cons.mp hq' with rfl | h'
    · exact hq
    · exact hqs _ h'

theorem pow2_54_lt : pow2 54 < 9223372036854775808 := by
  rw [pow2_eq_zpow]; norm_num

theorem foldl_min_of_bounded {qs : List ℚ} (hne : qs ≠ [])
    (hb : ∀ q ∈ qs, |q| ≤ pow2 54) :
    qs.foldl min 9223372036854775808 ∈ qs := by
  rcases foldl_min_mem qs 9223372036854775808 with h | h
  · exfalso
    obtain ⟨q, hq⟩ := List.exists_mem_of_ne_nil qs hne
    have h1 := foldl_min_le_mem qs 9223372036854775808 hq
    have h2 := (abs_le.mp (hb q hq)).2
    have h3 := pow2_54_lt
    rw [h] at h1
    linarith
  · exact h

theorem foldl_max_of_bounded {qs : List ℚ} (hne : qs ≠ [])
    (hb : ∀ q ∈ qs, |q| ≤ pow2 54) :
    qs.foldl max (-9223372036854775808) ∈ qs := by
  rcases foldl_max_mem qs (-9223372036854775808) with h | h
  · exfalso
    obtain ⟨q, hq⟩ := List.exists_mem_of_ne_nil qs hne
    have h1 := mem_le_foldl_max qs (-9223372036854775808) hq
    have h2 := (abs_le.mp (hb q hq)).1
    have h3 := pow2_54_lt
    rw [h] at h1
    linarith
  · exact h

theorem fle_fin (a b : ℚ) : fle (fin a) (fin b) = true ↔ a ≤ b := by
  simp [fle]

theorem map_toRat_fin (qs : List ℚ) : (qs.map fin).map F64.toRat = qs := by
  induction qs with
  | nil => rfl
  | cons q qs ih => rw [List.map_cons, List.map_cons, ih]; rfl

theorem avg_between_of_exact (qs : List ℚ) (r : ℤ) (m M : ℚ)
    (hr : 0 < r) (hr53 : r ≤ 2 ^ 53) (hlen : (qs.length : ℤ) = r)
    (hm : Representable m) (hM : Representable M) (hMb : |M| ≤ pow2 54) (hmb : |m| ≤ pow2 54)
    (hlo : ∀ q ∈ qs, m ≤ q) (hhi : ∀ q ∈ qs, q ≤ M) :
    ∃ a : ℚ, fdiv (fin qs.sum) (ofInt r) = fin a ∧ m ≤ a ∧ a ≤ M := by
  have hrq : (0 : ℚ) < (r : ℚ) := by exact_mod_cast hr
  have hlenq : ((qs.length : ℕ) : ℚ) = (r : ℚ) := by exact_mod_cast hlen
  have h1 : (r : ℚ) * m ≤ qs.sum := by
    have := List.card_nsmul_le_sum qs m hlo
    rw [nsmul_eq_mul, hlenq] at this
    exact this
  have h2 : qs.sum ≤ (r : ℚ) * M := by
    have := List.sum_le_card_nsmul qs M hhi
    rw [nsmul_eq_mul, hlenq] at this
    exact this
  have hlo' : m ≤ qs.sum / r := by rw [le_div_iff₀ hrq]; linarith
  have hhi' : qs.sum / r ≤ M := by rw [div_le_iff₀ hrq]; linarith
  have ha := le_roundQ_of_le hm hlo'
  have hb := roundQ_le_of_le hM hhi'
  refine ⟨roundQ (qs.sum / r), ?_, ha, hb⟩
  rw [ofInt_of_abs_le (by rw [abs_le]; constructor <;> omega), fdiv_fin_of_ne hrq.ne']
  apply round64_of_lt
  have hlt : pow2 54 < pow2 1024 := pow2_lt_pow2 (by norm_num)
  have hm' := abs_le.mp hmb
  have hM' := abs_le.mp hMb
  rw [abs_lt]
  constructor <;> linarith

/-! ## The rounding error of one operation and of the accumulated sum -/

theorem abs_rne_sub_le (t : ℚ) : |(rne t : ℚ) - t| ≤ 1 / 2 := by
  have h1 := Int.floor_le t
  have h2 := Int.lt_floor_add_one t
  unfold rne
  simp only
  rw [abs_le]
  split_ifs with a b c
  · constructor <;> linarith
  · push_cast; constructor <;> linarith
  · constructor <;> linarith
  · push_cast; constructor <;> linarith

theorem ilog2_ge_of_le {x : ℚ} (h : pow2 (-1022) ≤ |x|) : -1022 ≤ ilog2 x := by
  by_contra hcon
  push_neg at hcon
  have h1 := abs_lt_pow2_ilog2 x
  have h2 : pow2 (ilog2 x + 1) ≤ pow2 (-1022) := pow2_le_pow2 (by omega)
  linarith

theorem abs_roundQ_sub_le {x : ℚ} (h : pow2 (-1022) ≤ |x|) :
    |roundQ x - x| ≤ |x| * (1 / 2 ^ 53) := by
  have hx : x ≠ 0 := by
    rintro rfl
    have := pow2_pos (-1022)
    simp at h
    linarith
  have hu := pow2_pos (ulpExp x)
  have hlog := ilog2_ge_of_le h
  have he : ulpExp x = ilog2 x - 52 := by
    unfold ulpExp
    rw [max_eq_left hlog]
  have hsplit : pow2 (ilog2 x) = 2 ^ 52 * pow2 (ulpExp x) := by
    rw [pow2_ofNat_mul, he]; congr 1; push_cast; ring
  have hle := (ilog2_spec x hx).1
  have hr := abs_rne_sub_le (x / pow2 (ulpExp x))
  have heq : roundQ x - x = ((rne (x / pow2 (ulpExp x)) : ℚ) - x / pow2 (ulpExp x))
      * pow2 (ulpExp x) := by
    unfold roundQ
    field_simp
  rw [heq, abs_mul, abs_of_pos hu]
  have h3 : |(rne (x / pow2 (ulpExp x)) : ℚ) - x / pow2 (ulpExp x)| * pow2 (ulpExp x)
      ≤ 1 / 2 * pow2 (ulpExp x) := mul_le_mul_of_nonneg_right hr hu.le
  have h4 : (1 : ℚ) / 2 * pow2 (ulpExp x) = pow2 (ilog2 x) * (1 / 2 ^ 53) := by
    rw [hsplit]; ring
  have h5 : pow2 (ilog2 x) * (1 / 2 ^ 53) ≤ |x| * (1 / 2 ^ 53) :=
    mul_le_mul_of_nonneg_right hle (by positivity)
  linarith

theorem roundQ_rel_of_nonneg {x : ℚ} (h0 : 0 ≤ x) (h : x = 0 ∨ pow2 (-1022) ≤ x) :
    x * (1 - 1 / 2 ^ 53) ≤ roundQ x ∧ roundQ x ≤ x * (1 + 1 / 2 ^ 53) := by
  rcases h with rfl | h
  · rw [roundQ_zero]; simp
  · have := abs_roundQ_sub_le (x := x) (by rwa [abs_of_nonneg h0])
    rw [abs_of_nonneg h0, abs_le] at this
    constructor <;> linarith [this.1, this.2]

theorem representable_zero : Representable 0 :=
  ⟨0, 0, by norm_num, by norm_num, by simp⟩

theorem roundQ_nonneg {x : ℚ} (h : 0 ≤ x) : 0 ≤ roundQ x :=
  le_roundQ_of_le representable_zero h

theorem pow2_neg10_le : pow2 (-1022) ≤ pow2 (-10) := pow2_le_pow2 (by norm_num)

theorem natCast_mul_pow2_lt (k : ℕ) (hk : k ≤ 2 ^ 53) : (k : ℚ) * pow2 54 < pow2 1024 := by
  have h1 : (k : ℚ) ≤ 2 ^ 53 := by exact_mod_cast hk
  have h2 : (2 : ℚ) ^ 53 * pow2 54 = pow2 ((53 : ℕ) + 54) := pow2_ofNat_mul 53 54
  have h3 : pow2 ((53 : ℕ) + 54) < pow2 1024 := pow2_lt_pow2 (by norm_num)
  have h4 : (k : ℚ) * pow2 54 ≤ 2 ^ 53 * pow2 54 :=
    mul_le_mul_of_nonneg_right h1 (pow2_pos 54).le
  linarith

/-- One rounded addition of a nonnegative term to a nonnegative accumulator. -/
theorem fadd_step {a q : ℚ} {k : ℕ} (ha0 : 0 ≤ a) (hq0 : 0 ≤ q)
    (haf : a = 0 ∨ pow2 (-10) ≤ a) (hqf : q = 0 ∨ pow2 (-10) ≤ q)
    (hak : a ≤ (k : ℚ) * pow2 54) (hqk : q ≤ pow2 54) (hk : k + 1 ≤ 2 ^ 53) :
    fadd (fin a) (fin q) = fin (roundQ (a + q))
    ∧ 0 ≤ roundQ (a + q)
    ∧ (roundQ (a + q) = 0 ∨ pow2 (-10) ≤ roundQ (a + q))
    ∧ roundQ (a + q) ≤ ((k + 1 : ℕ) : ℚ) * pow2 54
    ∧ (a + q) * (1 - 1 / 2 ^ 53) ≤ roundQ (a + q)
    ∧ roundQ (a + q) ≤ (a + q) * (1 + 1 / 2 ^ 53) := by
  have hx0 : 0 ≤ a + q := add_nonneg ha0 hq0
  have hxk : a + q ≤ ((k + 1 : ℕ) : ℚ) * pow2 54 := by push_cast; linarith
  have hrep : Representable (((k + 1 : ℕ) : ℚ) * pow2 54) := by
    have := representable_mul_pow2 (m := ((k + 1 : ℕ) : ℤ)) (e := 54)
      (by rw [abs_of_nonneg (by positivity)]; exact_mod_cast hk) (by norm_num)
    simpa using this
  have hup : roundQ (a + q) ≤ ((k + 1 : ℕ) : ℚ) * pow2 54 := roundQ_le_of_le hrep hxk
  have hlo : 0 ≤ roundQ (a + q) := roundQ_nonneg hx0
  have hfloor : a + q = 0 ∨ pow2 (-10) ≤ a + q := by
    rcases haf with h | h
    · rcases hqf with h' | h'
      · left; rw [h, h']; ring
      · right; linarith
    · right; linarith
  have hfloor' : roundQ (a + q) = 0 ∨ pow2 (-10) ≤ roundQ (a + q) := by
    rcases hfloor with h | h
    · left; rw [h, roundQ_zero]
    · right; exact le_roundQ_of_le (representable_pow2 (by norm_num)) h
  have hrel := roundQ_rel_of_nonneg hx0
    (hfloor.imp id fun h => le_trans pow2_neg10_le h)
  refine ⟨?_, hlo, hfloor', hup, hrel.1, hrel.2⟩
  show round64 (a + q) = fin (roundQ (a + q))
  apply round64_of_lt
  rw [abs_of_nonneg hlo]
  exact lt_of_le_of_lt hup (natCast_mul_pow2_lt (k + 1) hk)

theorem foldl_fadd_error : ∀ (qs : List ℚ),
    (∀ q ∈ qs, 0 ≤ q ∧ q ≤ pow2 54 ∧ (q = 0 ∨ pow2 (-10) ≤ q)) →
    ∀ (a T : ℚ) (k j : ℕ), 0 ≤ T → 0 ≤ a → (a = 0 ∨ pow2 (-10) ≤ a) →
    a ≤ (k : ℚ) * pow2 54 →
    T * (1 - 1 / 2 ^ 53) ^ j ≤ a → a ≤ T * (1 + 1 / 2 ^ 53) ^ j →
    k + qs.length ≤ 2 ^ 53 →
    ∃ a' : ℚ, (qs.map fin).foldl fadd (fin a) = fin a'
      ∧ 0 ≤ a' ∧ (a' = 0 ∨ pow2 (-10) ≤ a')
      ∧ a' ≤ ((k + qs.length : ℕ) : ℚ) * pow2 54
      ∧ (T + qs.sum) * (1 - 1 / 2 ^ 53) ^ (j + qs.length) ≤ a'
      ∧ a' ≤ (T + qs.sum) * (1 + 1 / 2 ^ 53) ^ (j + qs.length)
  | [], _, a, T, k, j, _, ha0, haf, hak, hlo, hhi, _ =>
    ⟨a, rfl, ha0, haf, by simpa using hak, by simpa using hlo, by simpa using hhi⟩
  | q :: qs, hq, a, T, k, j, hT, ha0, haf, hak, hlo, hhi, hk => by
    obtain ⟨hq0, hqk, hqf⟩ := hq q (List.mem_cons_self _ _)
    have hk1 : k + 1 ≤ 2 ^ 53 := by simp only [List.length_cons] at hk; omega
    obtain ⟨hs, h0, hf, hu, hl, hh⟩ := fadd_step ha0 hq0 haf hqf hak hqk hk1
    have hd0 : (0 : ℚ) ≤ 1 - 1 / 2 ^ 53 := by norm_num
    have hd1 : (1 : ℚ) - 1 / 2 ^ 53 ≤ 1 := by norm_num
    have hg1 : (1 : ℚ) ≤ 1 + 1 / 2 ^ 53 := by norm_num
    have hdj : (1 - 1 / 2 ^ 53 : ℚ) ^ j ≤ 1 := pow_le_one₀ hd0 hd1
    have hdj0 : (0 : ℚ) ≤ (1 - 1 / 2 ^ 53 : ℚ) ^ j := pow_nonneg hd0 j
    have hgj : (1 : ℚ) ≤ (1 + 1 / 2 ^ 53 : ℚ) ^ j := one_le_pow₀ hg1
    have hlo' : (T + q) * (1 - 1 / 2 ^ 53) ^ (j + 1) ≤ roundQ (a + q) := by
      have e1 : (T + q) * (1 - 1 / 2 ^ 53) ^ j ≤ a + q := by
        have : q * (1 - 1 / 2 ^ 53) ^ j ≤ q := by
          calc q * (1 - 1 / 2 ^ 53) ^ j ≤ q * 1 := mul_le_mul_of_nonneg_left hdj hq0
            _ = q := mul_one q
        linarith [add_mul T q ((1 - 1 / 2 ^ 53 : ℚ) ^ j)]
      calc (T + q) * (1 - 1 / 2 ^ 53) ^ (j + 1)
          = ((T + q) * (1 - 1 / 2 ^ 53) ^ j) * (1 - 1 / 2 ^ 53) := by rw [pow_succ]; ring
        _ ≤ (a + q) * (1 - 1 / 2 ^ 53) := mul_le_mul_of_nonneg_right e1 hd0
        _ ≤ roundQ (a + q) := hl
    have hhi' : roundQ (a + q) ≤ (T + q) * (1 + 1 / 2 ^ 53) ^ (j + 1) := by
      have e1 : a + q ≤ (T + q) * (1 + 1 / 2 ^ 53) ^ j := by
        have : q ≤ q * (1 + 1 / 2 ^ 53) ^ j := by
          calc q = q * 1 := (mul_one q).symm
            _ ≤ q * (1 + 1 / 2 ^ 53) ^ j := mul_le_mul_of_nonneg_left hgj hq0
        linarith [add_mul T q ((1 + 1 / 2 ^ 53 : ℚ) ^ j)]
      calc roundQ (a + q) ≤ (a + q) * (1 + 1 / 2 ^ 53) := hh
        _ ≤ ((T + q) * (1 + 1 / 2 ^ 53) ^ j) * (1 + 1 / 2 ^ 53) :=
            mul_le_mul_of_nonneg_right e1 (by linarith)
        _ = (T + q) * (1 + 1 / 2 ^ 53) ^ (j + 1) := by rw [pow_succ]; ring
    obtain ⟨a', hfold, h0', hf', hu', hl', hh'⟩ :=
      foldl_fadd_error qs (fun x hx => hq x (List.mem_cons_of_mem _ hx)) (roundQ (a + q))
        (T + q) (k + 1) (j + 1) (add_nonneg hT hq0) h0 hf hu hlo' hhi'
        (by simp only [List.length_cons] at hk; omega)
    refine ⟨a', ?_, h0', hf', ?_, ?_, ?_⟩
    · rw [List.map_cons, List.foldl_cons, hs]; exact hfold
    · have : k + 1 + qs.length = k + (q :: qs).length := by simp only [List.length_cons]; omega
      rw [← this]; exact hu'
    · have e1 : j + 1 + qs.length = j + (q :: qs).length := by
        simp only [List.length_cons]; omega
      have e2 : T + q + qs.sum = T + (q :: qs).sum := by simp only [List.sum_cons]; ring
      rw [← e1, ← e2]; exact hl'
    · have e1 : j + 1 + qs.length = j + (q :: qs).length := by
        simp only [List.length_cons]; omega
      have e2 : T + q + qs.sum = T + (q :: qs).sum := by simp only [List.sum_cons]; ring
      rw [← e1, ← e2]; exact hh'

theorem fadd_zero_fin {q : ℚ} (hq : Representable q) (hb : |q| ≤ pow2 54) :
    fadd (fin 0) (fin q) = fin q := by
  show round64 (0 + q) = fin q
  rw [zero_add]
  exact round64_of_representable hq (lt_of_le_of_lt hb (pow2_lt_pow2 (by norm_num)))

/-- The float64 mean of nonnegative terms is the true mean up to one rounding per
operation. -/
theorem avg_error (q : ℚ) (qs : List ℚ) (r : ℤ)
    (hq : ∀ x ∈ q :: qs, Representable x ∧ 0 ≤ x ∧ x ≤ pow2 54 ∧ (x = 0 ∨ pow2 (-10) ≤ x))
    (hlen : (((q :: qs).length : ℕ) : ℤ) = r) (hr53 : r ≤ 2 ^ 53) :
    ∃ a : ℚ, fdiv (fsum ((q :: qs).map fin)) (ofInt r) = fin a
      ∧ (q :: qs).sum / (r : ℚ) * (1 - 1 / 2 ^ 53) ^ (q :: qs).length ≤ a
      ∧ a ≤ (q :: qs).sum / (r : ℚ) * (1 + 1 / 2 ^ 53) ^ (q :: qs).length := by
  obtain ⟨hqr, hq0, hqk, hqf⟩ := hq q (List.mem_cons_self _ _)
  have hn : 1 + qs.length ≤ 2 ^ 53 := by
    simp only [List.length_cons] at hlen
    have : ((qs.length + 1 : ℕ) : ℤ) ≤ 2 ^ 53 := by rw [hlen]; exact hr53
    have h2 : qs.length + 1 ≤ 2 ^ 53 := by exact_mod_cast this
    omega
  obtain ⟨a, hfold, ha0, haf, hak, hlo, hhi⟩ :=
    foldl_fadd_error qs
      (fun x hx => (hq x (List.mem_cons_of_mem _ hx)).2) q q 1 0 hq0 hq0 hqf
      (by simpa using hqk) (by simp) (by simp) hn
  have hsum : fsum ((q :: qs).map fin) = fin a := by
    unfold fsum
    rw [List.map_cons, List.foldl_cons,
      fadd_zero_fin hqr (by rw [abs_of_nonneg hq0]; exact hqk)]
    exact hfold
  have hr : 0 < r := by
    rw [← hlen]
    simp only [List.length_cons]
    positivity
  have hrq : (0 : ℚ) < (r : ℚ) := by exact_mod_cast hr
  have hrle : (r : ℚ) ≤ 2 ^ 53 := by exact_mod_cast hr53
  have hrn : (r : ℚ) = ((1 + qs.length : ℕ) : ℚ) := by
    rw [← hlen]
    simp only [List.length_cons]
    push_cast
    ring
  have hx0 : 0 ≤ a / (r : ℚ) := div_nonneg ha0 hrq.le
  have hxk : a / (r : ℚ) ≤ pow2 54 := by
    rw [div_le_iff₀ hrq, hrn, mul_comm]
    exact hak
  have hxf : a / (r : ℚ) = 0 ∨ pow2 (-1022) ≤ a / (r : ℚ) := by
    rcases haf with h | h
    · left; rw [h]; simp
    · right
      rw [le_div_iff₀ hrq]
      have h1 : pow2 (-1022) * (r : ℚ) ≤ pow2 (-1022) * 2 ^ 53 :=
        mul_le_mul_of_nonneg_left hrle (pow2_pos _).le
      have h2 : pow2 (-1022) * 2 ^ 53 = pow2 ((53 : ℕ) + (-1022)) := by
        rw [mul_comm]; exact pow2_ofNat_mul 53 (-1022)
      have h3 : pow2 ((53 : ℕ) + (-1022)) ≤ pow2 (-10) := pow2_le_pow2 (by norm_num)
      linarith
  obtain ⟨hl, hh⟩ := roundQ_rel_of_nonneg hx0 hxf
  have hup : roundQ (a / (r : ℚ)) ≤ pow2 54 :=
    roundQ_le_of_le (representable_pow2 (by norm_num)) hxk
  have hd0 : (0 : ℚ) ≤ 1 - 1 / 2 ^ 53 := by norm_num
  have hg0 : (0 : ℚ) ≤ 1 + 1 / 2 ^ 53 := by norm_num
  refine ⟨roundQ (a / (r : ℚ)), ?_, ?_, ?_⟩
  · rw [hsum, fdiv_ofInt_exact a r hr hr53]
    apply round64_of_lt
    rw [abs_of_nonneg (roundQ_nonneg hx0)]
    exact lt_of_le_of_lt hup (pow2_lt_pow2 (by norm_num))
  · have e1 : (q :: qs).sum / (r : ℚ) * (1 - 1 / 2 ^ 53) ^ (q :: qs).length
        = (q + qs.sum) * (1 - 1 / 2 ^ 53) ^ (0 + qs.length) / (r : ℚ) * (1 - 1 / 2 ^ 53) := by
      simp only [List.sum_cons, List.length_cons, zero_add, pow_succ]
      ring
    rw [e1]
    calc (q + qs.sum) * (1 - 1 / 2 ^ 53) ^ (0 + qs.length) / (r : ℚ) * (1 - 1 / 2 ^ 53)
        ≤ a / (r : ℚ) * (1 - 1 / 2 ^ 53) :=
          mul_le_mul_of_nonneg_right (div_le_div_of_nonneg_right hlo hrq.le) hd0
      _ ≤ roundQ (a / (r : ℚ)) := hl
  · have e1 : (q :: qs).sum / (r : ℚ) * (1 + 1 / 2 ^ 53) ^ (q :: qs).length
        = (q + qs.sum) * (1 + 1 / 2 ^ 53) ^ (0 + qs.length) / (r : ℚ) * (1 + 1 / 2 ^ 53) := by
      simp only [List.sum_cons, List.length_cons, zero_add, pow_succ]
      ring
    rw [e1]
    calc roundQ (a / (r : ℚ)) ≤ a / (r : ℚ) * (1 + 1 / 2 ^ 53) := hh
      _ ≤ (q + qs.sum) * (1 + 1 / 2 ^ 53) ^ (0 + qs.length) / (r : ℚ) * (1 + 1 / 2 ^ 53) :=
          mul_le_mul_of_nonneg_right (div_le_div_of_nonneg_right hhi hrq.le) hg0

theorem elapsedMs_eq {us : ℤ} (h1 : -2 ^ 63 ≤ us) (h2 : us < 2 ^ 63) :
    elapsedMs us = fin (roundQ (roundQ (us : ℚ) / 1000)) := by
  obtain ⟨q, hq, -, hb⟩ := isRecorded_fin ⟨us, h1, h2, rfl⟩
  have hus : |(us : ℚ)| ≤ pow2 63 := by
    have h63 : pow2 63 = ((2 ^ 63 : ℤ) : ℚ) := by rw [pow2_eq_zpow]; norm_num
    have : |us| ≤ 2 ^ 63 := by rw [abs_le]; constructor <;> omega
    have : ((|us| : ℤ) : ℚ) ≤ ((2 ^ 63 : ℤ) : ℚ) := Int.cast_le.mpr this
    rw [h63]
    rwa [Int.cast_abs] at this
  have e1 : ofInt us = fin (roundQ (us : ℚ)) :=
    round64_of_abs_le (by norm_num) (by norm_num) hus
  have e2 : elapsedMs us = round64 (roundQ (us : ℚ) / 1000) := by
    unfold elapsedMs
    rw [e1, fdiv_fin_of_ne (by norm_num)]
  rw [e2] at hq ⊢
  unfold round64 at hq ⊢
  split_ifs at hq ⊢ with h
  rfl

theorem representable_neg {f : ℚ} (hf : Representable f) : Representable (-f) := by
  obtain ⟨m, e, hm, he, rfl⟩ := hf
  exact ⟨-m, e, by simpa using hm, he, by push_cast; ring⟩

theorem pow2_neg10 : pow2 (-10) = 1 / 1024 := by
  rw [pow2_eq_zpow]; norm_num

/-- A recorded latency that is not negative is `0` or at least `2^-10` ms. -/
theorem isRecorded_nonneg {q : ℚ} (h : IsRecorded (fin q)) (h0 : 0 ≤ q) :
    Representable q ∧ 0 ≤ q ∧ q ≤ pow2 54 ∧ (q = 0 ∨ pow2 (-10) ≤ q) := by
  obtain ⟨q', hq', hrep, hb⟩ := isRecorded_fin h
  have hqq : q = q' := by injection hq'
  subst hqq
  refine ⟨hrep, h0, (abs_le.mp hb).2, ?_⟩
  obtain ⟨us, h1, h2, hv⟩ := h
  rw [elapsedMs_eq h1 h2] at hv
  have hq : q = roundQ (roundQ (us : ℚ) / 1000) := by injection hv
  have hone : Representable (1 : ℚ) := by
    simpa using representable_intCast (n := 1) (by norm_num)
  rcases lt_trichotomy us 0 with hneg | hzero | hpos
  · exfalso
    have hle : (us : ℚ) ≤ -1 := by exact_mod_cast (show us ≤ -1 by omega)
    have hr1 : roundQ (us : ℚ) ≤ -1 := roundQ_le_of_le (representable_neg hone) hle
    have hr2 : roundQ (us : ℚ) / 1000 ≤ -pow2 (-10) := by
      rw [pow2_neg10, div_le_iff₀ (by norm_num)]
      linarith
    have hr3 := roundQ_le_of_le (representable_neg (representable_pow2 (by norm_num))) hr2
    have := pow2_pos (-10)
    linarith
  · left
    rw [hq, hzero]
    simp [roundQ_zero]
  · right
    have hle : (1 : ℚ) ≤ (us : ℚ) := by exact_mod_cast (show 1 ≤ us by omega)
    have hr1 : 1 ≤ roundQ (us : ℚ) := le_roundQ_of_le hone hle
    have hr2 : pow2 (-10) ≤ roundQ (us : ℚ) / 1000 := by
      rw [pow2_neg10, le_div_iff₀ (by norm_num)]
      linarith
    rw [hq]
    exact le_roundQ_of_le (representable_pow2 (by norm_num)) hr2

theorem avg_between_of_sum_bounds (s : ℚ) (r : ℤ) (m M : ℚ)
    (hr : 0 < r) (hr53 : r ≤ 2 ^ 53)
    (hm : Representable m) (hM : Representable M) (hMb : |M| ≤ pow2 54) (hmb : |m| ≤ pow2 54)
    (h1 : (r : ℚ) * m ≤ s) (h2 : s ≤ (r : ℚ) * M) :
    ∃ a : ℚ, fdiv (fin s) (ofInt r) = fin a ∧ m ≤ a ∧ a ≤ M := by
  have hrq : (0 : ℚ) < (r : ℚ) := by exact_mod_cast hr
  have hlo' : m ≤ s / r := by rw [le_div_iff₀ hrq]; linarith
  have hhi' : s / r ≤ M := by rw [div_le_iff₀ hrq]; linarith
  have ha := le_roundQ_of_le hm hlo'
  have hb := roundQ_le_of_le hM hhi'
  refine ⟨roundQ (s / r), ?_, ha, hb⟩
  rw [fdiv_ofInt_exact s r hr hr53]
  apply round64_of_lt
  have hlt : pow2 54 < pow2 1024 := pow2_lt_pow2 (by norm_num)
  have hm' := abs_le.mp hmb
  have hM' := abs_le.mp hMb
  rw [abs_lt]
  constructor <;> linarith

theorem representable_two_mul {f : ℚ} (hf : Representable f) : Representable (2 * f) := by
  obtain ⟨m, e, hm, he, rfl⟩ := hf
  refine ⟨m, e + 1, hm, by omega, ?_⟩
  rw [pow2_add, pow2_eq_zpow 1]
  norm_num
  ring

/-- With at most two latencies the float64 mean lies between the least and the greatest. -/
theorem avg_between_small (qs : List ℚ) (r : ℤ) (m M : ℚ) (hr : 0 < r) (hr2 : r ≤ 2)
    (hlen : (qs.length : ℤ) = r)
    (hqs : ∀ q ∈ qs, Representable q ∧ |q| ≤ pow2 54)
    (hm : m ∈ qs) (hM : M ∈ qs) (hlo : ∀ q ∈ qs, m ≤ q) (hhi : ∀ q ∈ qs, q ≤ M) :
    ∃ a : ℚ, fdiv (fsum (qs.map fin)) (ofInt r) = fin a ∧ m ≤ a ∧ a ≤ M := by
  have hr53 : r ≤ 2 ^ 53 := by omega
  match qs, hlen, hqs, hm, hM, hlo, hhi with
  | [], hlen, _, _, _, _, _ => simp at hlen; omega
  | [x], hlen, hqs, hm, hM, hlo, hhi =>
    have hx := hqs x (List.mem_singleton_self x)
    have hs : fsum ([x].map fin) = fin x := by
      unfold fsum
      rw [List.map_cons, List.map_nil, List.foldl_cons, List.foldl_nil]
      exact round64_of_representable (by rw [zero_add]; exact hx.1)
        (by rw [zero_add]; exact lt_of_le_of_lt hx.2 (pow2_lt_pow2 (by norm_num))) |>.trans
        (by rw [zero_add])
    have hr1 : (r : ℚ) = 1 := by
      have : r = 1 := by simp at hlen; omega
      rw [this]; norm_num
    rw [hs]
    exact avg_between_of_sum_bounds x r m M hr hr53 (hqs m hm).1 (hqs M hM).1 (hqs M hM).2
      (hqs m hm).2 (by rw [hr1, one_mul]; exact hlo x (List.mem_singleton_self x))
      (by rw [hr1, one_mul]; exact hhi x (List.mem_singleton_self x))
  | [x, y], hlen, hqs, hm, hM, hlo, hhi =>
    have hx := hqs x (List.mem_cons_self _ _)
    have hy := hqs y (List.mem_cons_of_mem _ (List.mem_singleton_self y))
    have hxy : |x + y| ≤ pow2 55 := by
      have h55 : pow2 55 = pow2 54 + pow2 54 := by
        rw [pow2_eq_zpow, pow2_eq_zpow]; norm_num
      rw [h55]
      exact le_trans (abs_add x y) (add_le_add hx.2 hy.2)
    have hs : fsum ([x, y].map fin) = fin (roundQ (x + y)) := by
      unfold fsum
      simp only [List.map_cons, List.map_nil, List.foldl_cons, List.foldl_nil]
      rw [fadd_zero_fin hx.1 hx.2]
      exact round64_of_abs_le (by norm_num) (by norm_num) hxy
    have hr2' : (r : ℚ) = 2 := by
      have : r = 2 := by simp at hlen; omega
      rw [this]; norm_num
    have hmx := hlo x (List.mem_cons_self _ _)
    have hmy := hlo y (List.mem_cons_of_mem _ (List.mem_singleton_self y))
    have hMx := hhi x (List.mem_cons_self _ _)
    have hMy := hhi y (List.mem_cons_of_mem _ (List.mem_singleton_self y))
    rw [hs]
    exact avg_between_of_sum_bounds (roundQ (x + y)) r m M hr hr53 (hqs m hm).1 (hqs M hM).1
      (hqs M hM).2 (hqs m hm).2
      (by rw [hr2']; exact le_roundQ_of_le (representable_two_mul (hqs m hm).1) (by linarith))
      (by rw [hr2']; exact roundQ_le_of_le (representable_two_mul (hqs M hM).1) (by linarith))
  | _ :: _ :: _ :: _, hlen, _, _, _, _, _ => simp at hlen; omega

/-! ## Claims on `computeResult` -/

/-- C1 (amended): for a ProbeRun with `0 < sentCount`, `0 ≤ respondedCount ≤ sentCount`
and `100 * sentCount ≤ 2^53` (any latencies), `computeResult` returns as `lossPercent`
the float64 nearest to `100 * (sentCount - respondedCount) / sentCount`; it is exactly
`100` when `respondedCount = 0` and exactly `0` when `respondedCount = sentCount`. -/
theorem computeResult_lossPercent (st : tcpingStatus)
    (hs : 0 < st.sentCount) (hr0 : 0 ≤ st.respondedCount)
    (hrs : st.respondedCount ≤ st.sentCount) (hbound : 100 * st.sentCount ≤ 2 ^ 53) :
    (computeResult st).lossPercent
        = round64 (100 * ((st.sentCount : ℚ) - (st.respondedCount : ℚ)) / (st.sentCount : ℚ))
      ∧ (st.respondedCount = 0 → (computeResult st).lossPercent = fin 100)
      ∧ (st.respondedCount = st.sentCount → (computeResult st).lossPercent = fin 0) := by
  exact ⟨lossPercent_exact st hs hr0 hrs hbound,
    fun h0 => lossPercent_no_response st hs h0 hbound,
    fun h0 => lossPercent_all_responded st hs h0 hbound⟩

/-- C1 witness: 2 responses out of 3 attempts give the float64 nearest to `100/3`. -/
theorem computeResult_lossPercent_witness :
    (computeResult ⟨[fin 20, fin 30], 3, 2⟩).lossPercent
        = round64 (100 * (((3 : ℤ) : ℚ) - ((2 : ℤ) : ℚ)) / ((3 : ℤ) : ℚ))
      ∧ round64 (100 * (((3 : ℤ) : ℚ) - ((2 : ℤ) : ℚ)) / ((3 : ℤ) : ℚ))
        = fin (4691249611844267 / 140737488355328) :=
  ⟨(computeResult_lossPercent ⟨[fin 20, fin 30], 3, 2⟩ (by decide) (by decide) (by decide)
      (by norm_num)).1, by decide!⟩

/-- C1 as stated fails: with `sentCount = 360287970189641` and no response the
product `100 * sentCount` is rounded before the division and `lossPercent` is
`99.99999999999999`, not `100`. -/
theorem computeResult_lossPercent_counterexample :
    (0 : ℤ) < 360287970189641 ∧
    (computeResult ⟨[], 360287970189641, 0⟩).lossPercent
        = fin (7036874417766399 / 70368744177664) ∧
    (computeResult ⟨[], 360287970189641, 0⟩).lossPercent ≠ fin 100 := by
  decide!

theorem computeResult_recorded (st : tcpingStatus) (hr : 0 < st.respondedCount)
    (hlen : (st.tcping_result.length : ℤ) = st.respondedCount)
    (hrec : ∀ v ∈ st.tcping_result, IsRecorded v) :
    ∃ (qs : List ℚ) (m M : ℚ), st.tcping_result = qs.map fin
      ∧ (computeResult st).minTime = fin m ∧ (computeResult st).maxTime = fin M
      ∧ (computeResult st).avgTime = fdiv (fsum (qs.map fin)) (ofInt st.respondedCount)
      ∧ m ∈ qs ∧ M ∈ qs ∧ (∀ q ∈ qs, m ≤ q) ∧ (∀ q ∈ qs, q ≤ M)
      ∧ (∀ q ∈ qs, Representable q ∧ |q| ≤ pow2 54) := by
  obtain ⟨lat, s, r⟩ := st
  simp only at hr hlen hrec ⊢
  obtain ⟨qs, rfl, hqs⟩ := recorded_list hrec
  have hne : qs ≠ [] := by
    rintro rfl
    simp at hlen
    omega
  have hb : ∀ q ∈ qs, |q| ≤ pow2 54 := fun q hq => (hqs q hq).2
  refine ⟨qs, _, _, rfl, ?_, ?_, ?_, foldl_min_of_bounded hne hb, foldl_max_of_bounded hne hb,
    fun q hq => foldl_min_le_mem qs _ hq, fun q hq => mem_le_foldl_max qs _ hq, hqs⟩
  · rw [computeResult_of_fin qs s r hr.ne']
  · rw [computeResult_of_fin qs s r hr.ne']
  · rw [computeResult_of_fin qs s r hr.ne']

theorem mean_between (st : tcpingStatus) (hr : 0 < st.respondedCount)
    (hlen : (st.tcping_result.length : ℤ) = st.respondedCount)
    (hrec : ∀ v ∈ st.tcping_result, IsRecorded v) :
    (computeResult st).minTime.toRat
        ≤ (st.tcping_result.map F64.toRat).sum / (st.respondedCount : ℚ)
    ∧ (st.tcping_result.map F64.toRat).sum / (st.respondedCount : ℚ)
        ≤ (computeResult st).maxTime.toRat := by
  obtain ⟨qs, m, M, hl, hmin, hmax, -, -, -, hlo, hhi, -⟩ :=
    computeResult_recorded st hr hlen hrec
  rw [hmin, hmax, hl, map_toRat_fin]
  have hrq : (0 : ℚ) < (st.respondedCount : ℚ) := by exact_mod_cast hr
  have hlenq : ((qs.length : ℕ) : ℚ) = (st.respondedCount : ℚ) := by
    have : (qs.length : ℤ) = st.respondedCount := by rw [← hlen, hl, List.length_map]
    exact_mod_cast this
  have h1 := List.card_nsmul_le_sum qs m hlo
  have h2 := List.sum_le_card_nsmul qs M hhi
  rw [nsmul_eq_mul, hlenq] at h1 h2
  constructor
  · show m ≤ _
    rw [le_div_iff₀ hrq]; linarith
  · show _ ≤ M
    rw [div_le_iff₀ hrq]; linarith

theorem computeResult_avg_error (st : tcpingStatus) (hr : 0 < st.respondedCount)
    (hr53 : st.respondedCount ≤ 2 ^ 53)
    (hlen : (st.tcping_result.length : ℤ) = st.respondedCount)
    (hrec : ∀ v ∈ st.tcping_result, IsRecorded v)
    (h0 : ∀ v ∈ st.tcping_result, fle (fin 0) v = true) :
    ∃ a : ℚ, (computeResult st).avgTime = fin a
      ∧ (st.tcping_result.map F64.toRat).sum / (st.respondedCount : ℚ)
          * (1 - 1 / 2 ^ 53) ^ st.respondedCount.toNat ≤ a
      ∧ a ≤ (st.tcping_result.map F64.toRat).sum / (st.respondedCount : ℚ)
          * (1 + 1 / 2 ^ 53) ^ st.respondedCount.toNat := by
  obtain ⟨qs, m, M, hl, -, -, havg, -, -, -, -, -⟩ := computeResult_recorded st hr hlen hrec
  have hlen' : (qs.length : ℤ) = st.respondedCount := by rw [← hlen, hl, List.length_map]
  have hn : st.respondedCount.toNat = qs.length := by rw [← hlen']; simp
  have hfacts : ∀ x ∈ qs, Representable x ∧ 0 ≤ x ∧ x ≤ pow2 54 ∧ (x = 0 ∨ pow2 (-10) ≤ x) := by
    intro x hx
    have hmem : fin x ∈ st.tcping_result := by rw [hl]; exact List.mem_map_of_mem _ hx
    exact isRecorded_nonneg (hrec _ hmem) ((fle_fin 0 x).mp (h0 _ hmem))
  rw [havg, hl, map_toRat_fin, hn]
  match qs, hlen', hfacts with
  | [], hlen', _ => simp at hlen'; omega
  | q :: qs', hlen', hfacts => exact avg_error q qs' st.respondedCount hfacts hlen' hr53

theorem computeResult_avg_small (st : tcpingStatus) (hr : 0 < st.respondedCount)
    (hr2 : st.respondedCount ≤ 2)
    (hlen : (st.tcping_result.length : ℤ) = st.respondedCount)
    (hrec : ∀ v ∈ st.tcping_result, IsRecorded v) :
    fle (computeResult st).minTime (computeResult st).avgTime = true
    ∧ fle (computeResult st).avgTime (computeResult st).maxTime = true := by
  obtain ⟨qs, m, M, hl, hmin, hmax, havg, hm, hM, hlo, hhi, hqs⟩ :=
    computeResult_recorded st hr hlen hrec
  have hlen' : (qs.length : ℤ) = st.respondedCount := by rw [← hlen, hl, List.length_map]
  obtain ⟨a, ha, h1, h2⟩ := avg_between_small qs st.respondedCount m M hr hr2 hlen' hqs hm hM
    hlo hhi
  rw [hmin, hmax, havg, ha]
  exact ⟨(fle_fin _ _).mpr h1, (fle_fin _ _).mpr h2⟩

/-- C2 (amended): for a ProbeRun with `respondedCount > 0` whose latency sequence holds
one recorded latency per responded attempt, `computeResult` returns as `minTime` the
least and as `maxTime` the greatest of the latencies.  `avgTime` is the float64 quotient
by `respondedCount` of the float64 sum of the latencies (accumulated in sequence order):
it is the float64 nearest to `(sum of the latencies) / respondedCount` when that
accumulation is exact, and in general, for latencies that are not negative and
`n = respondedCount ≤ 2^53`, it lies between `(1 - 2^-53)^n` and `(1 + 2^-53)^n` times
`(sum of the latencies) / respondedCount`. -/
theorem computeResult_min_max_avg (st : tcpingStatus) (hr : 0 < st.respondedCount)
    (hlen : (st.tcping_result.length : ℤ) = st.respondedCount)
    (hrec : ∀ v ∈ st.tcping_result, IsRecorded v) :
    ((computeResult st).minTime ∈ st.tcping_result
      ∧ ∀ v ∈ st.tcping_result, fle (computeResult st).minTime v = true)
    ∧ ((computeResult st).maxTime ∈ st.tcping_result
      ∧ ∀ v ∈ st.tcping_result, fle v (computeResult st).maxTime = true)
    ∧ (computeResult st).avgTime = fdiv (fsum st.tcping_result) (ofInt st.respondedCount)
    ∧ (fsum st.tcping_result = fin ((st.tcping_result.map F64.toRat).sum) →
        st.respondedCount ≤ 2 ^ 53 →
        (computeResult st).avgTime
          = round64 ((st.tcping_result.map F64.toRat).sum / (st.respondedCount : ℚ)))
    ∧ ((∀ v ∈ st.tcping_result, fle (fin 0) v = true) → st.respondedCount ≤ 2 ^ 53 →
        ∃ a : ℚ, (computeResult st).avgTime = fin a
          ∧ (st.tcping_result.map F64.toRat).sum / (st.respondedCount : ℚ)
              * (1 - 1 / 2 ^ 53) ^ st.respondedCount.toNat ≤ a
          ∧ a ≤ (st.tcping_result.map F64.toRat).sum / (st.respondedCount : ℚ)
              * (1 + 1 / 2 ^ 53) ^ st.respondedCount.toNat) := by
  obtain ⟨qs, m, M, hl, hmin, hmax, havg, hm, hM, hlo, hhi, -⟩ :=
    computeResult_recorded st hr hlen hrec
  refine ⟨⟨?_, ?_⟩, ⟨?_, ?_⟩, ?_, ?_, ?_⟩
  · rw [hmin, hl]; exact List.mem_map_of_mem _ hm
  · intro v hv
    rw [hl] at hv
    obtain ⟨q, hq, rfl⟩ := List.mem_map.mp hv
    rw [hmin]
    exact (fle_fin _ _).mpr (hlo q hq)
  · rw [hmax, hl]; exact List.mem_map_of_mem _ hM
  · intro v hv
    rw [hl] at hv
    obtain ⟨q, hq, rfl⟩ := List.mem_map.mp hv
    rw [hmax]
    exact (fle_fin _ _).mpr (hhi q hq)
  · rw [havg, hl]
  · intro hsum hr53
    rw [havg, ← hl, hsum, fdiv_ofInt_exact _ _ hr hr53]
  · intro h0 hr53
    exact computeResult_avg_error st hr hr53 hlen hrec h0

/-- C3 (amended): for a ProbeRun with `0 < respondedCount ≤ 2^53` whose latency
sequence holds one recorded latency per responded attempt, `minTime ≤ maxTime`;
`minTime ≤ avgTime ≤ maxTime` holds whenever `respondedCount ≤ 2`, and whenever the
float64 accumulation of the latencies is exact; and for any number `n` of latencies,
none negative, with `μ` their true mean: `minTime ≤ avgTime` whenever
`minTime ≤ μ * (1 - 2^-53)^n`, `avgTime ≤ maxTime` whenever `μ * (1 + 2^-53)^n ≤ maxTime`,
and in every case `minTime * (1 - 2^-53)^n ≤ avgTime ≤ maxTime * (1 + 2^-53)^n`.  The
ordering can fail only when the latencies are equal to within the rounding of the `n`
operations. -/
theorem computeResult_avg_between (st : tcpingStatus) (hr : 0 < st.respondedCount)
    (hr53 : st.respondedCount ≤ 2 ^ 53)
    (hlen : (st.tcping_result.length : ℤ) = st.respondedCount)
    (hrec : ∀ v ∈ st.tcping_result, IsRecorded v) :
    fle (computeResult st).minTime (computeResult st).maxTime = true
    ∧ (fsum st.tcping_result = fin ((st.tcping_result.map F64.toRat).sum) →
        fle (computeResult st).minTime (computeResult st).avgTime = true
        ∧ fle (computeResult st).avgTime (computeResult st).maxTime = true)
    ∧ (st.respondedCount ≤ 2 →
        fle (computeResult st).minTime (computeResult st).avgTime = true
        ∧ fle (computeResult st).avgTime (computeResult st).maxTime = true)
    ∧ ((∀ v ∈ st.tcping_result, fle (fin 0) v = true) →
        ((computeResult st).minTime.toRat
            ≤ (st.tcping_result.map F64.toRat).sum / (st.respondedCount : ℚ)
              * (1 - 1 / 2 ^ 53) ^ st.respondedCount.toNat →
          fle (computeResult st).minTime (computeResult st).avgTime = true)
        ∧ ((st.tcping_result.map F64.toRat).sum / (st.respondedCount : ℚ)
              * (1 + 1 / 2 ^ 53) ^ st.respondedCount.toNat
            ≤ (computeResult st).maxTime.toRat →
          fle (computeResult st).avgTime (computeResult st).maxTime = true)
        ∧ ∃ a : ℚ, (computeResult st).avgTime = fin a
          ∧ (computeResult st).minTime.toRat * (1 - 1 / 2 ^ 53) ^ st.respondedCount.toNat ≤ a
          ∧ a ≤ (computeResult st).maxTime.toRat
              * (1 + 1 / 2 ^ 53) ^ st.respondedCount.toNat) := by
  refine ⟨?_, ?_, fun hr2 => computeResult_avg_small st hr hr2 hlen hrec, ?_⟩
  · obtain ⟨qs, m, M, hl, hmin, hmax, -, hm, hM, hlo, -, -⟩ :=
      computeResult_recorded st hr hlen hrec
    rw [hmin, hmax]
    exact (fle_fin _ _).mpr (hlo M hM)
  · obtain ⟨qs, m, M, hl, hmin, hmax, havg, hm, hM, hlo, hhi, hqs⟩ :=
      computeResult_recorded st hr hlen hrec
    rw [hmin, hmax, havg, hl, map_toRat_fin]
    intro hsum
    rw [hsum]
    have hlen' : (qs.length : ℤ) = st.respondedCount := by
      rw [← hlen, hl, List.length_map]
    obtain ⟨a, ha, h1, h2⟩ := avg_between_of_exact qs st.respondedCount m M hr hr53 hlen'
      (hqs m hm).1 (hqs M hM).1 (hqs M hM).2 (hqs m hm).2 hlo hhi
    rw [ha]
    exact ⟨(fle_fin _ _).mpr h1, (fle_fin _ _).mpr h2⟩
  · intro h0
    obtain ⟨a, ha, h1, h2⟩ := computeResult_avg_error st hr hr53 hlen hrec h0
    obtain ⟨hm, hM⟩ := mean_between st hr hlen hrec
    have hd : (0 : ℚ) ≤ (1 - 1 / 2 ^ 53) ^ st.respondedCount.toNat :=
      pow_nonneg (by norm_num) _
    have hg : (0 : ℚ) ≤ (1 + 1 / 2 ^ 53) ^ st.respondedCount.toNat :=
      pow_nonneg (by norm_num) _
    obtain ⟨qs, m', M', -, hmin, hmax, -, -, -, -, -, -⟩ :=
      computeResult_recorded st hr hlen hrec
    refine ⟨?_, ?_, a, ha, le_trans (mul_le_mul_of_nonneg_right hm hd) h1,
      le_trans h2 (mul_le_mul_of_nonneg_right hM hg)⟩
    · intro hlow
      rw [hmin] at hlow ⊢
      rw [ha]
      exact (fle_fin _ _).mpr (le_trans hlow h1)
    · intro hhigh
      rw [hmax] at hhigh ⊢
      rw [ha]
      exact (fle_fin _ _).mpr (le_trans h2 hhigh)

/-- C2 witness: scenario A (latencies 10, 12, 11 ms) gives min 10, max 12, avg 11, and
scenario C (latencies 20, 30 ms) gives min 20, max 30, avg 25. -/
theorem computeResult_min_max_avg_witness :
    (((computeResult scenarioA).minTime ∈ scenarioA.tcping_result
        ∧ ∀ v ∈ scenarioA.tcping_result, fle (computeResult scenarioA).minTime v = true)
      ∧ ((computeResult scenarioA).maxTime ∈ scenarioA.tcping_result
        ∧ ∀ v ∈ scenarioA.tcping_result, fle v (computeResult scenarioA).maxTime = true)
      ∧ (computeResult scenarioA).avgTime
          = fdiv (fsum scenarioA.tcping_result) (ofInt scenarioA.respondedCount)
      ∧ ∃ a : ℚ, (computeResult scenarioA).avgTime = fin a
          ∧ (scenarioA.tcping_result.map F64.toRat).sum / (scenarioA.respondedCount : ℚ)
              * (1 - 1 / 2 ^ 53) ^ scenarioA.respondedCount.toNat ≤ a
          ∧ a ≤ (scenarioA.tcping_result.map F64.toRat).sum / (scenarioA.respondedCount : ℚ)
              * (1 + 1 / 2 ^ 53) ^ scenarioA.respondedCount.toNat)
    ∧ computeResult scenarioA = ⟨fin 10, fin 12, fin 11, fin 0, []⟩
    ∧ (computeResult scenarioC).minTime = fin 20
    ∧ (computeResult scenarioC).maxTime = fin 30
    ∧ (computeResult scenarioC).avgTime = fin 25 := by
  have hrec : ∀ v ∈ scenarioA.tcping_result, IsRecorded v := by
    intro v hv
    simp only [scenarioA, List.mem_cons, List.mem_singleton, List.not_mem_nil, or_false] at hv
    rcases hv with rfl | rfl | rfl
    · exact ⟨10000, by norm_num, by norm_num, by decide!⟩
    · exact ⟨12000, by norm_num, by norm_num, by decide!⟩
    · exact ⟨11000, by norm_num, by norm_num, by decide!⟩
  have h := computeResult_min_max_avg scenarioA (by decide) rfl hrec
  exact ⟨⟨h.1, h.2.1, h.2.2.1, h.2.2.2.2 (by decide!) (by norm_num [scenarioA])⟩,
    by decide!, by decide!, by decide!, by decide!⟩

/-- C2 as stated fails: three responses of 100 µs each are recorded as `0.1` ms each;
the sum of the latencies divided by 3 is that same `0.1`, but `avgTime` is
`0.10000000000000002`, the float64 sum `0.30000000000000004` divided by 3. -/
theorem computeResult_min_max_avg_counterexample :
    (0 : ℤ) < threeTenths.respondedCount
    ∧ (threeTenths.tcping_result.length : ℤ) = threeTenths.respondedCount
    ∧ (∀ v ∈ threeTenths.tcping_result, v = elapsedMs 100)
    ∧ (threeTenths.tcping_result.map F64.toRat).sum / (threeTenths.respondedCount : ℚ)
        = 3602879701896397 / 36028797018963968
    ∧ (computeResult threeTenths).avgTime = fin (7205759403792795 / 72057594037927936)
    ∧ (computeResult threeTenths).avgTime
        ≠ fin ((threeTenths.tcping_result.map F64.toRat).sum / (threeTenths.respondedCount : ℚ))
    ∧ (computeResult threeTenths).avgTime
        ≠ round64 ((threeTenths.tcping_result.map F64.toRat).sum
            / (threeTenths.respondedCount : ℚ)) := by
  decide!

/-- C3 witness: two responses of 134 µs and 106 µs, whose float64 sum is rounded, have
`0.106 ≤ 0.12 ≤ 0.134`; three responses of 225, 130 and 71 µs, whose mean is well
inside the interval, have `minTime ≤ avgTime ≤ maxTime`; scenario C (20 and 30 ms,
summed exactly) has `20 ≤ 25 ≤ 30`. -/
theorem computeResult_avg_between_witness :
    (fle (computeResult twoDials).minTime (computeResult twoDials).maxTime = true
      ∧ fle (computeResult twoDials).minTime (computeResult twoDials).avgTime = true
      ∧ fle (computeResult twoDials).avgTime (computeResult twoDials).maxTime = true)
    ∧ fsum twoDials.tcping_result ≠ fin ((twoDials.tcping_result.map F64.toRat).sum)
    ∧ (computeResult twoDials).minTime = fin (7638104968020361 / 72057594037927936)
    ∧ (computeResult twoDials).avgTime = fin (1080863910568919 / 9007199254740992)
    ∧ (computeResult twoDials).maxTime = fin (1206964700135293 / 9007199254740992)
    ∧ (fle (computeResult threeDials).minTime (computeResult threeDials).avgTime = true
      ∧ fle (computeResult threeDials).avgTime (computeResult threeDials).maxTime = true)
    ∧ (fle (computeResult scenarioC).minTime (computeResult scenarioC).avgTime = true
      ∧ fle (computeResult scenarioC).avgTime (computeResult scenarioC).maxTime = true)
    ∧ computeResult scenarioC
        = ⟨fin 20, fin 30, fin 25, fin (4691249611844267 / 140737488355328), []⟩ := by
  have hrec3 : ∀ v ∈ threeDials.tcping_result, IsRecorded v := by
    intro v hv
    simp only [threeDials, List.mem_cons, List.mem_singleton, List.not_mem_nil, or_false] at hv
    rcases hv with rfl | rfl | rfl
    · exact ⟨225, by norm_num, by norm_num, rfl⟩
    · exact ⟨130, by norm_num, by norm_num, rfl⟩
    · exact ⟨71, by norm_num, by norm_num, rfl⟩
  have h3 := (computeResult_avg_between threeDials (by decide) (by norm_num [threeDials]) rfl
    hrec3).2.2.2 (by decide!)
  have hrec2 : ∀ v ∈ twoDials.tcping_result, IsRecorded v := by
    intro v hv
    simp only [twoDials, List.mem_cons, List.mem_singleton, List.not_mem_nil, or_false] at hv
    rcases hv with rfl | rfl
    · exact ⟨134, by norm_num, by norm_num, rfl⟩
    · exact ⟨106, by norm_num, by norm_num, rfl⟩
  have hrecC : ∀ v ∈ scenarioC.tcping_result, IsRecorded v := by
    intro v hv
    simp only [scenarioC, List.mem_cons, List.mem_singleton, List.not_mem_nil, or_false] at hv
    rcases hv with rfl | rfl
    · exact ⟨20000, by norm_num, by norm_num, by decide!⟩
    · exact ⟨30000, by norm_num, by norm_num, by decide!⟩
  have h2 := computeResult_avg_between twoDials (by decide) (by norm_num [twoDials]) rfl hrec2
  have hC := computeResult_avg_between scenarioC (by decide) (by norm_num [scenarioC]) rfl hrecC
  exact ⟨⟨h2.1, h2.2.2.1 (by decide)⟩, by decide!, by decide!, by decide!, by decide!,
    ⟨h3.1 (by decide!), h3.2.1 (by decide!)⟩, hC.2.1 (by decide!), by decide!⟩

/-- C3 as stated fails: ten responses of 100 µs each are recorded as `0.1` ms, their
float64 sum is `0.9999999999999999`, and `avgTime = 0.09999999999999999` is below
`minTime = 0.1`. -/
theorem computeResult_avg_between_counterexample :
    (0 : ℤ) < tenTenths.respondedCount
    ∧ (tenTenths.tcping_result.length : ℤ) = tenTenths.respondedCount
    ∧ (∀ v ∈ tenTenths.tcping_result, v = elapsedMs 100)
    ∧ (computeResult tenTenths).minTime = fin (3602879701896397 / 36028797018963968)
    ∧ (computeResult tenTenths).avgTime = fin (7205759403792793 / 72057594037927936)
    ∧ fle (computeResult tenTenths).minTime (computeResult tenTenths).avgTime = false := by
  decide!

/-- C4: for `sentCount = 0` (and no response, as `Tcping` produces for a count `≤ 0`)
the latency fields stay at zero, but the division by `float64(sentCount)` is not
guarded: `lossPercent` is `100 * 0 / 0 = NaN`, not `0`. -/
theorem computeResult_zero_sent :
    computeResult ⟨[], 0, 0⟩ = ⟨fin 0, fin 0, fin 0, nan, []⟩
    ∧ (computeResult ⟨[], 0, 0⟩).lossPercent ≠ fin 0 := by
  decide!

theorem computeResult_nil : computeResult ⟨[], 0, 0⟩ = ⟨fin 0, fin 0, fin 0, nan, []⟩ := by
  decide!

theorem attemptLoop_of_nonpos (net : ℕ → Attempt) (countFlag intervalFlag : ℤ)
    (h : countFlag ≤ 0) : attemptLoop net countFlag intervalFlag = ⟨⟨[], 0, 0⟩, [], []⟩ := by
  unfold attemptLoop
  rw [Int.toNat_of_nonpos h]
  rfl

theorem Tcping_of_nonpos (t : Target) (countFlag connectTimeoutFlag intervalFlag : ℤ)
    (net : ℕ → Attempt) (h : countFlag ≤ 0) :
    Tcping t countFlag connectTimeoutFlag intervalFlag net
      = ⟨fin 0, fin 0, fin 0, nan, [t.Host, t.Port, t.Name]⟩ := by
  unfold Tcping
  simp only [attemptLoop_of_nonpos net countFlag intervalFlag h, computeResult_nil]
  rfl

theorem feq_fin_iff (x : F64) (q : ℚ) : feq x (fin q) = true ↔ x = fin q := by
  cases x <;> simp [feq]

theorem emit_of_loss_100 (s : Statistics) (hlen : s.label.length = 3)
    (h : s.lossPercent = fin 100) :
    emit s = some [⟨"tcping_loss_ratio", s.lossPercent, s.label⟩] := by
  have hf : feq s.lossPercent (fin 100) = true := (feq_fin_iff _ _).mpr h
  unfold emit
  simp [hf, MustNewConstMetric, hlen, tcpingMetricsLabels]

theorem emit_of_loss_ne (s : Statistics) (hlen : s.label.length = 3)
    (h : s.lossPercent ≠ fin 100) :
    emit s = some [⟨"tcping_loss_ratio", s.lossPercent, s.label⟩,
      ⟨"tcping_rtt_best_ms", s.minTime, s.label⟩,
      ⟨"tcping_rtt_worst_ms", s.maxTime, s.label⟩,
      ⟨"tcping_rtt_mean_ms", s.avgTime, s.label⟩] := by
  have hf : feq s.lossPercent (fin 100) = false := by
    rw [← Bool.not_eq_true, feq_fin_iff]; exact h
  unfold emit
  simp [hf, MustNewConstMetric, hlen, tcpingMetricsLabels]

/-- C5: for a Statistics `s` carrying a target's label tuple, `Collect` emits exactly the
sample `tcping_loss_ratio = s.lossPercent` when `s.lossPercent = 100`, and otherwise
exactly the four samples `tcping_loss_ratio = s.lossPercent`, `tcping_rtt_best_ms =
s.minTime`, `tcping_rtt_worst_ms = s.maxTime`, `tcping_rtt_mean_ms = s.avgTime`, in
that order; every sample carries `s.label`. -/
theorem emit_samples (s : Statistics) (t : Target) (hl : s.label = [t.Host, t.Port, t.Name]) :
    (s.lossPercent = fin 100 →
      emit s = some [⟨"tcping_loss_ratio", s.lossPercent, s.label⟩])
    ∧ (s.lossPercent ≠ fin 100 →
      emit s = some [⟨"tcping_loss_ratio", s.lossPercent, s.label⟩,
        ⟨"tcping_rtt_best_ms", s.minTime, s.label⟩,
        ⟨"tcping_rtt_worst_ms", s.maxTime, s.label⟩,
        ⟨"tcping_rtt_mean_ms", s.avgTime, s.label⟩]) := by
  have hlen : s.label.length = 3 := by rw [hl]; rfl
  exact ⟨emit_of_loss_100 s hlen, emit_of_loss_ne s hlen⟩

/-- C5 witness: `Statistics{min=10, max=12, avg=11, loss=0}` emits loss_ratio=0, best=10,
worst=12, mean=11. -/
theorem emit_samples_witness :
    emit ⟨fin 10, fin 12, fin 11, fin 0, ["example.org", "443", "web"]⟩
      = some [⟨"tcping_loss_ratio", fin 0, ["example.org", "443", "web"]⟩,
        ⟨"tcping_rtt_best_ms", fin 10, ["example.org", "443", "web"]⟩,
        ⟨"tcping_rtt_worst_ms", fin 12, ["example.org", "443", "web"]⟩,
        ⟨"tcping_rtt_mean_ms", fin 11, ["example.org", "443", "web"]⟩] :=
  (emit_samples ⟨fin 10, fin 12, fin 11, fin 0, ["example.org", "443", "web"]⟩ exampleTarget
    rfl).2 (by decide!)

/-- C6: for a run with a count of `0` (`sentCount = 0`, `respondedCount = 0`) the
loss-ratio sample is not the only one: `lossPercent` is `NaN`, the test
`lossPercent == 100.0` fails, and `Collect` also emits best, worst and mean samples
with the value `0`; with 3 failed attempts out of 3 only `loss_ratio = 100` is emitted. -/
theorem emit_zero_sent :
    emit (Tcping exampleTarget 0 1000 1 deadNet)
      = some [⟨"tcping_loss_ratio", nan, ["example.org", "443", "web"]⟩,
        ⟨"tcping_rtt_best_ms", fin 0, ["example.org", "443", "web"]⟩,
        ⟨"tcping_rtt_worst_ms", fin 0, ["example.org", "443", "web"]⟩,
        ⟨"tcping_rtt_mean_ms", fin 0, ["example.org", "443", "web"]⟩]
    ∧ emit (Tcping exampleTarget 3 1000 1 deadNet)
      = some [⟨"tcping_loss_ratio", fin 100, ["example.org", "443", "web"]⟩] := by
  decide!

/-! ## Claims on `Tcping` -/

/-- The state of the attempt loop after its first `n` iterations. -/
theorem attemptLoop_prefix (net : ℕ → Attempt) (intervalFlag : ℤ) (n : ℕ)
    (hn : (n : ℤ) < 2 ^ 63) :
    ((List.range n).foldl (attemptStep net intervalFlag) ⟨⟨[], 0, 0⟩, [], []⟩).status
        = ⟨((List.range n).filter fun i => (net i).success).map
              fun i => elapsedMs (net i).micros,
            n, (((List.range n).filter fun i => (net i).success).length : ℤ)⟩
    ∧ ((List.range n).foldl (attemptStep net intervalFlag) ⟨⟨[], 0, 0⟩, [], []⟩).deferred
        = ((List.range n).filter fun i => (net i).success).reverse
    ∧ dialsOf ((List.range n).foldl (attemptStep net intervalFlag) ⟨⟨[], 0, 0⟩, [], []⟩).trace
        = List.range n
    ∧ ∀ a ∈ ((List.range n).foldl (attemptStep net intervalFlag) ⟨⟨[], 0, 0⟩, [], []⟩).trace,
        ∀ i, a ≠ Action.close i := by
  induction n with
  | zero => simp [dialsOf]
  | succ n ih =>
    obtain ⟨h1, h2, h3, h4⟩ := ih (by push_cast at hn; omega)
    have hlen : ((List.range n).filter fun i => (net i).success).length ≤ n := by
      calc _ ≤ (List.range n).length := List.length_filter_le _ _
        _ = n := List.length_range n
    rw [List.range_succ, List.foldl_append, List.foldl_cons, List.foldl_nil]
    generalize (List.range n).foldl (attemptStep net intervalFlag) ⟨⟨[], 0, 0⟩, [], []⟩ = s at *
    obtain ⟨st, df, tr⟩ := s
    simp only at h1 h2 h3 h4
    subst h1 h2
    have hw1 : wrap64 ((n : ℤ) + 1) = (n : ℤ) + 1 :=
      wrap64_of_range (by omega) (by push_cast at hn; omega)
    have hw2 : wrap64 ((((List.range n).filter fun i => (net i).success).length : ℤ) + 1)
        = (((List.range n).filter fun i => (net i).success).length : ℤ) + 1 :=
      wrap64_of_range (by omega) (by push_cast at hn; omega)
    unfold attemptStep
    by_cases hsucc : (net n).success = true
    · simp only [hsucc, Bool.not_true, Bool.false_eq_true, if_false, hw1, hw2,
        List.filter_append, List.map_append, List.reverse_append]
      refine ⟨?_, ?_, ?_, ?_⟩
      · simp [hsucc]
      · simp [hsucc]
      · simp only [dialsOf, List.filterMap_append] at h3 ⊢
        rw [h3]
        rfl
      · intro a ha i
        rcases List.mem_append.mp ha with h | h
        · exact h4 a h i
        · simp only [List.mem_cons, List.mem_singleton, List.not_mem_nil, or_false] at h
          rcases h with rfl | rfl | rfl <;> simp
    · have hf : (net n).success = false := by simpa using hsucc
      simp only [hf, Bool.not_false, if_true, hw1, List.filter_append]
      refine ⟨?_, ?_, ?_, ?_⟩
      · simp [hf]
      · simp [hf]
      · simp only [dialsOf, List.filterMap_append] at h3 ⊢
        rw [h3]
        rfl
      · intro a ha i
        rcases List.mem_append.mp ha with h | h
        · exact h4 a h i
        · simp only [List.mem_cons, List.mem_singleton, List.not_mem_nil, or_false] at h
          rcases h with rfl | rfl <;> simp

/-- C7: for a count `0 ≤ countFlag` (a Go `int`, so below `2^63`) and any outcomes of the
attempts, the ProbeRun built by `Tcping`'s attempt loop has `sentCount = countFlag`,
`respondedCount` = the number of successful attempts, and as latencies the recorded
latencies of the successful attempts in attempt order; so the latency sequence has
length `respondedCount`, `0 ≤ respondedCount ≤ sentCount`, and every attempt
`0, …, countFlag - 1` is dialled whatever the outcomes of the earlier ones. -/
theorem attemptLoop_status (net : ℕ → Attempt) (countFlag intervalFlag : ℤ)
    (h0 : 0 ≤ countFlag) (hmax : countFlag < 2 ^ 63) :
    (attemptLoop net countFlag intervalFlag).status.sentCount = countFlag
    ∧ (attemptLoop net countFlag intervalFlag).status.respondedCount
        = (((List.range countFlag.toNat).filter fun i => (net i).success).length : ℤ)
    ∧ (attemptLoop net countFlag intervalFlag).status.tcping_result
        = ((List.range countFlag.toNat).filter fun i => (net i).success).map
            (fun i => elapsedMs (net i).micros)
    ∧ ((attemptLoop net countFlag intervalFlag).status.tcping_result.length : ℤ)
        = (attemptLoop net countFlag intervalFlag).status.respondedCount
    ∧ 0 ≤ (attemptLoop net countFlag intervalFlag).status.respondedCount
    ∧ (attemptLoop net countFlag intervalFlag).status.respondedCount
        ≤ (attemptLoop net countFlag intervalFlag).status.sentCount
    ∧ dialsOf (attemptLoop net countFlag intervalFlag).trace = List.range countFlag.toNat := by
  have hn : ((countFlag.toNat : ℕ) : ℤ) < 2 ^ 63 := by rw [Int.toNat_of_nonneg h0]; exact hmax
  obtain ⟨h1, -, h3, -⟩ := attemptLoop_prefix net intervalFlag countFlag.toNat hn
  have hlen : ((List.range countFlag.toNat).filter fun i => (net i).success).length
      ≤ countFlag.toNat := by
    calc _ ≤ (List.range countFlag.toNat).length := List.length_filter_le _ _
      _ = countFlag.toNat := List.length_range _
  unfold attemptLoop
  rw [h1]
  refine ⟨Int.toNat_of_nonneg h0, rfl, rfl, by simp, by simp, ?_, h3⟩
  simp only
  omega

/-- C7 witness: three attempts of which the second fails give `sentCount = 3`,
`respondedCount = 2` and the latencies 20 ms and 30 ms. -/
theorem attemptLoop_status_witness :
    ((attemptLoop lossyNet 3 1).status.sentCount = 3
      ∧ (attemptLoop lossyNet 3 1).status.respondedCount
          = (((List.range (3 : ℤ).toNat).filter fun i => (lossyNet i).success).length : ℤ)
      ∧ (attemptLoop lossyNet 3 1).status.tcping_result
          = ((List.range (3 : ℤ).toNat).filter fun i => (lossyNet i).success).map
              (fun i => elapsedMs (lossyNet i).micros)
      ∧ ((attemptLoop lossyNet 3 1).status.tcping_result.length : ℤ)
          = (attemptLoop lossyNet 3 1).status.respondedCount
      ∧ 0 ≤ (attemptLoop lossyNet 3 1).status.respondedCount
      ∧ (attemptLoop lossyNet 3 1).status.respondedCount
          ≤ (attemptLoop lossyNet 3 1).status.sentCount
      ∧ dialsOf (attemptLoop lossyNet 3 1).trace = List.range (3 : ℤ).toNat)
    ∧ (attemptLoop lossyNet 3 1).status = scenarioC :=
  ⟨attemptLoop_status lossyNet 3 1 (by decide) (by norm_num), by decide!⟩

/-- C10: with two successful attempts the connection of attempt 0 is not closed before
the sleep that follows it: `defer conn.Close()` runs when `Tcping` returns, so the run
sleeps, dials attempt 1 and sleeps again with it open, and both connections are closed
only after the summary log line, the later one first. -/
theorem TcpingTrace_two_successes :
    TcpingTrace 2 1 liveNet
      = [Action.dial 0, Action.logTime 0, Action.sleep 1,
         Action.dial 1, Action.logTime 1, Action.sleep 1,
         Action.logStatus, Action.close 1, Action.close 0] := by
  decide!

/-- In every run, no connection is closed before the summary log line: the actions
are those of the loop, none of which is a close, then the log line, then one close
per successful attempt, latest attempt first. -/
theorem TcpingTrace_closes_last (net : ℕ → Attempt) (countFlag intervalFlag : ℤ)
    (h0 : 0 ≤ countFlag) (hmax : countFlag < 2 ^ 63) :
    TcpingTrace countFlag intervalFlag net
        = (attemptLoop net countFlag intervalFlag).trace ++ [Action.logStatus]
          ++ (((List.range countFlag.toNat).filter fun i => (net i).success).reverse.map
              Action.close)
    ∧ ∀ a ∈ (attemptLoop net countFlag intervalFlag).trace, ∀ i, a ≠ Action.close i := by
  have hn : ((countFlag.toNat : ℕ) : ℤ) < 2 ^ 63 := by rw [Int.toNat_of_nonneg h0]; exact hmax
  obtain ⟨-, h2, -, h4⟩ := attemptLoop_prefix net intervalFlag countFlag.toNat hn
  refine ⟨?_, h4⟩
  unfold TcpingTrace
  simp only
  unfold attemptLoop
  rw [h2]

/-- When every one of `countFlag ≥ 1` attempts fails (and `100 * countFlag ≤ 2^53`),
`lossPercent` is exactly `100` and `Collect` emits the loss-ratio sample only. -/
theorem emit_no_response (t : Target) (countFlag connectTimeoutFlag intervalFlag : ℤ)
    (net : ℕ → Attempt) (h0 : 0 < countFlag) (hb : 100 * countFlag ≤ 2 ^ 53)
    (hfail : ∀ i, (net i).success = false) :
    emit (Tcping t countFlag connectTimeoutFlag intervalFlag net)
      = some [⟨"tcping_loss_ratio", fin 100, [t.Host, t.Port, t.Name]⟩] := by
  have hn : ((countFlag.toNat : ℕ) : ℤ) < 2 ^ 63 := by
    rw [Int.toNat_of_nonneg h0.le]; omega
  obtain ⟨h1, -, -, -⟩ := attemptLoop_prefix net intervalFlag countFlag.toNat hn
  have hnil : ((List.range countFlag.toNat).filter fun i => (net i).success) = [] := by
    rw [List.filter_eq_nil_iff]
    intro i _
    simp [hfail i]
  rw [hnil, Int.toNat_of_nonneg h0.le] at h1
  have hst : (attemptLoop net countFlag intervalFlag).status = ⟨[], countFlag, 0⟩ := by
    unfold attemptLoop
    rw [h1]
    rfl
  have hloss : (Tcping t countFlag connectTimeoutFlag intervalFlag net).lossPercent = fin 100 := by
    unfold Tcping
    simp only [hst]
    exact lossPercent_no_response ⟨[], countFlag, 0⟩ h0 rfl hb
  have := emit_of_loss_100 (Tcping t countFlag connectTimeoutFlag intervalFlag net) rfl hloss
  rw [this, hloss]
  rfl

/-! ## Claims on the fan-out and fan-in of `Collect` -/

theorem perm_cons_eraseIdx {α : Type} : ∀ (l : List α) (i : ℕ) (x : α),
    l[i]? = some x → l.Perm (x :: l.eraseIdx i)
  | [], i, x, h => by simp at h
  | a :: l, 0, x, h => by
    simp at h
    subst h
    simp
  | a :: l, i + 1, x, h => by
    simp only [List.getElem?_cons_succ] at h
    have := perm_cons_eraseIdx l i x h
    simp only [List.eraseIdx_cons_succ]
    exact (List.Perm.cons a this).trans (List.Perm.swap x a _)

theorem length_eraseIdx_of_getElem? {α : Type} (l : List α) (i : ℕ) (x : α)
    (h : l[i]? = some x) : (l.eraseIdx i).length + 1 = l.length := by
  have := (perm_cons_eraseIdx l i x h).length_eq
  simp at this
  omega

theorem fanInv_length {probe : ℕ × Target → Statistics} {cap : ℕ} {all : List Statistics}
    {s : FanState} (h : FanInv probe cap all s) :
    s.received.length + s.results.length + s.pending.length = cap := by
  obtain ⟨-, -, -, -, hp, hl⟩ := h
  have := hp.length_eq
  simp at this
  omega

theorem fanStep_inv {probe : ℕ × Target → Statistics} {cap : ℕ} {all : List Statistics}
    {s s' : FanState} {ev : FanEvent} (h : FanInv probe cap all s)
    (hs : fanStep probe cap s ev = some s') :
    FanInv probe cap all s' ∧ fanMeasure s' < fanMeasure s := by
  have hlen := fanInv_length h
  obtain ⟨hp, hwg, hcl, hfin, hperm, hall⟩ := h
  obtain ⟨pending, snd, wg, results, closed, received, finished, panicked⟩ := s
  simp only at hp hwg hcl hfin hperm hlen
  subst hp
  cases ev with
  | send i =>
    simp only [fanStep, Bool.false_eq_true, if_false] at hs
    cases hj : pending[i]? with
    | none => simp [hj] at hs
    | some job =>
      simp only [hj] at hs
      have hlen1 := length_eraseIdx_of_getElem? pending i job hj
      have hclosed : closed = false := by
        cases closed with
        | false => rfl
        | true => have := hcl rfl; omega
      subst hclosed
      simp only [Bool.false_eq_true, if_false] at hs
      split_ifs at hs with hcap
      simp only [Option.some.injEq] at hs
      subst hs
      refine ⟨⟨rfl, by simp only; omega, by simp,
        fun hf => absurd (hfin hf).2 (by simp), ?_, hall⟩, ?_⟩
      · simp only
        refine List.Perm.trans ?_ hperm
        have hpe := (perm_cons_eraseIdx pending i job hj).map probe
        simp only [List.map_cons] at hpe
        rw [List.append_assoc, List.append_assoc, List.append_assoc]
        apply List.Perm.append_left
        apply List.Perm.append_left
        exact hpe.symm
      · simp only [fanMeasure, List.length_append, List.length_singleton]
        omega
  | done =>
    simp only [fanStep, Bool.false_eq_true, if_false] at hs
    split_ifs at hs with h1 h2
    · omega
    · simp only [Option.some.injEq] at hs
      subst hs
      refine ⟨⟨rfl, by simp only; omega, ?_, hfin, hperm, hall⟩, ?_⟩
      · intro hc; have := hcl hc; omega
      · simp only [fanMeasure]
        omega
  | close =>
    simp only [fanStep, Bool.false_eq_true, if_false] at hs
    split_ifs at hs with h1
    simp only [Option.some.injEq] at hs
    subst hs
    obtain ⟨h1, h2⟩ := h1
    subst h2
    refine ⟨⟨rfl, hwg, fun _ => h1, ?_, hperm, hall⟩, ?_⟩
    · intro hf; exact ⟨(hfin hf).1, rfl⟩
    · simp [fanMeasure]
  | recv =>
    simp only [fanStep, Bool.false_eq_true, if_false] at hs
    split_ifs at hs with h1
    cases results with
    | nil => simp at hs
    | cons r rest =>
      simp only [Option.some.injEq] at hs
      subst hs
      have hf : finished = false := by simpa using h1
      subst hf
      refine ⟨⟨rfl, hwg, hcl, by simp, ?_, hall⟩, ?_⟩
      · simpa using hperm
      · simp [fanMeasure]
  | exit =>
    simp only [fanStep, Bool.false_eq_true, if_false] at hs
    split_ifs at hs with h1
    simp only [Option.some.injEq] at hs
    subst hs
    obtain ⟨h1, h2, h3⟩ := h1
    subst h1 h2 h3
    refine ⟨⟨rfl, hwg, hcl, fun _ => ⟨rfl, rfl⟩, hperm, hall⟩, ?_⟩
    simp [fanMeasure]

theorem fanRun_inv {probe : ℕ × Target → Statistics} {cap : ℕ} {all : List Statistics} :
    ∀ (schedule : List FanEvent) (s s' : FanState), FanInv probe cap all s →
      fanRun probe cap s schedule = some s' →
      FanInv probe cap all s' ∧ fanMeasure s' + schedule.length ≤ fanMeasure s
  | [], s, s', h, hr => by
    simp only [fanRun, Option.some.injEq] at hr
    subst hr
    exact ⟨h, by simp⟩
  | ev :: evs, s, s', h, hr => by
    simp only [fanRun] at hr
    cases hstep : fanStep probe cap s ev with
    | none => simp [hstep] at hr
    | some s1 =>
      simp only [hstep] at hr
      obtain ⟨h1, hm1⟩ := fanStep_inv h hstep
      obtain ⟨h2, hm2⟩ := fanRun_inv evs s1 s' h1 hr
      refine ⟨h2, ?_⟩
      simp only [List.length_cons]
      omega

theorem fanInit_inv (probe : ℕ × Target → Statistics) (targets : List Target) :
    FanInv probe targets.length (targets.enum.map probe) (fanInit targets) := by
  refine ⟨rfl, ?_, ?_, ?_, ?_, ?_⟩
  · simp [fanInit]
  · intro h; simp [fanInit] at h
  · intro h; simp [fanInit] at h
  · simp [fanInit]
  · simp

theorem fan_progress {probe : ℕ × Target → Statistics} {cap : ℕ} {all : List Statistics}
    {s : FanState} (h : FanInv probe cap all s) (hf : s.finished = false) :
    ∃ ev s', fanStep probe cap s ev = some s' := by
  have hlen := fanInv_length h
  obtain ⟨hp, hwg, hcl, hfin, hperm, hall⟩ := h
  obtain ⟨pending, snd, wg, results, closed, received, finished, panicked⟩ := s
  simp only at hp hwg hcl hfin hperm hlen hf
  subst hp hf
  cases pending with
  | cons job rest =>
    have hclosed : closed = false := by
      cases closed with
      | false => rfl
      | true => have := hcl rfl; simp at hwg; omega
    subst hclosed
    have hcap : results.length < cap := by simp at hlen; omega
    exact ⟨FanEvent.send 0, _, by simp [fanStep, hcap]; rfl⟩
  | nil =>
    by_cases hsnd : snd = 0
    · subst hsnd
      simp only [List.length_nil, add_zero] at hwg
      subst hwg
      cases closed with
      | false => exact ⟨FanEvent.close, _, by simp [fanStep]; rfl⟩
      | true =>
        cases results with
        | nil => exact ⟨FanEvent.exit, _, by simp [fanStep]; rfl⟩
        | cons r rest => exact ⟨FanEvent.recv, _, by simp [fanStep]; rfl⟩
    · have hwg0 : wg ≠ 0 := by simp at hwg; omega
      exact ⟨FanEvent.done, _, by simp [fanStep, hsnd, hwg0]; rfl⟩

theorem Tcping_label (t : Target) (countFlag connectTimeoutFlag intervalFlag : ℤ)
    (net : ℕ → Attempt) :
    (Tcping t countFlag connectTimeoutFlag intervalFlag net).label = [t.Host, t.Port, t.Name] :=
  rfl

/-- C8: whatever the schedule of the goroutines, of the closer and of the range loop,
no goroutine panics or is left blocked for ever (an unfinished state always has an
enabled event, and a schedule has at most `3 * len(targets) + 3` events), and when
the range loop has ended it has received exactly one Statistics per target: as many
results as targets, a permutation of the `Tcping` results of the targets, whose labels
are, up to order, the tuples `[t.Host, t.Port, t.Name]` of the targets. -/
theorem CollectFan_one_result_per_target (targets : List Target)
    (countFlag connectTimeoutFlag intervalFlag : ℤ) (net : ℕ → ℕ → Attempt)
    (schedule : List FanEvent) (s : FanState)
    (h : CollectFan targets countFlag connectTimeoutFlag intervalFlag net schedule = some s) :
    s.panicked = false
    ∧ schedule.length ≤ 3 * targets.length + 3
    ∧ (s.finished = false → ∃ ev s',
        fanStep (fun job => Tcping job.2 countFlag connectTimeoutFlag intervalFlag (net job.1))
          targets.length s ev = some s')
    ∧ (s.finished = true →
        s.received.length = targets.length
        ∧ s.received.Perm (targets.enum.map fun job =>
            Tcping job.2 countFlag connectTimeoutFlag intervalFlag (net job.1))
        ∧ (s.received.map fun r => r.label).Perm
            (targets.map fun t => [t.Host, t.Port, t.Name])) := by
  unfold CollectFan at h
  obtain ⟨hinv, hm⟩ := fanRun_inv schedule _ s (fanInit_inv _ targets) h
  refine ⟨hinv.1, ?_, fun hf => fan_progress hinv hf, ?_⟩
  · have : fanMeasure (fanInit targets) = 3 * targets.length + 3 := by
      simp [fanMeasure, fanInit]
    omega
  · intro hf
    have hlen := fanInv_length hinv
    obtain ⟨-, hwg, hcl, hfin, hperm, -⟩ := hinv
    obtain ⟨hres, hclosed⟩ := hfin hf
    have hwg0 := hcl hclosed
    have hpend : s.pending = [] := by
      apply List.eq_nil_of_length_eq_zero
      omega
    rw [hres, hpend] at hperm
    simp only [List.append_nil, List.map_nil] at hperm
    refine ⟨?_, hperm, ?_⟩
    · rw [hres, hpend] at hlen
      simpa using hlen
    · have := hperm.map (fun r : Statistics => r.label)
      refine this.trans ?_
      rw [List.map_map]
      have he : ((fun r : Statistics => r.label) ∘ fun job : ℕ × Target =>
          Tcping job.2 countFlag connectTimeoutFlag intervalFlag (net job.1))
          = (fun t : Target => [t.Host, t.Port, t.Name]) ∘ Prod.snd := by
        funext job
        rfl
      rw [he, ← List.map_map, List.enum_map_snd]

/-- C8 witness: two targets whose goroutines finish in the reverse of their order in
the configuration: two results, labelled with the two targets' tuples. -/
theorem CollectFan_one_result_per_target_witness :
    CollectFan twoTargets 3 1000 1 twoNets twoSchedule = some twoFinal
    ∧ twoFinal.received.length = twoTargets.length
    ∧ (twoFinal.received.map fun r => r.label).Perm
        (twoTargets.map fun t => [t.Host, t.Port, t.Name])
    ∧ (twoFinal.received.map fun r => r.label)
        = [["b.example", "443", "second"], ["a.example", "80", "first"]] :=
  have h : CollectFan twoTargets 3 1000 1 twoNets twoSchedule = some twoFinal := by decide!
  have hc := (CollectFan_one_result_per_target twoTargets 3 1000 1 twoNets twoSchedule
    twoFinal h).2.2.2 rfl
  ⟨h, hc.1, hc.2.2, rfl⟩

/-! ## Claims on the serialisation of scrapes -/

theorem countP_set {α : Type} (p : α → Bool) : ∀ (l : List α) (i : ℕ) (a b : α),
    l[i]? = some a →
    (l.set i b).countP p + (if p a then 1 else 0) = l.countP p + (if p b then 1 else 0)
  | [], i, a, b, h => by simp at h
  | x :: l, 0, a, b, h => by
    simp at h
    subst h
    simp only [List.set_cons_zero, List.countP_cons]
    omega
  | x :: l, i + 1, a, b, h => by
    simp only [List.getElem?_cons_succ] at h
    have := countP_set p l i a b h
    simp only [List.set_cons_succ, List.countP_cons]
    omega

theorem unique_of_countP_le_one {α : Type} (p : α → Bool) : ∀ (l : List α) (i j : ℕ) (a b : α),
    l.countP p ≤ 1 → l[i]? = some a → p a = true → l[j]? = some b → p b = true → j = i
  | [], i, j, a, b, _, h, _, _, _ => by simp at h
  | x :: l, 0, 0, a, b, _, _, _, _, _ => rfl
  | x :: l, 0, j + 1, a, b, hc, hi, ha, hj, hb => by
    exfalso
    simp at hi
    subst hi
    simp only [List.getElem?_cons_succ] at hj
    have hpos : 0 < l.countP p := List.countP_pos_iff.mpr ⟨b, List.getElem?_mem hj, hb⟩
    simp only [List.countP_cons, ha, if_true] at hc
    omega
  | x :: l, i + 1, 0, a, b, hc, hi, ha, hj, hb => by
    exfalso
    simp at hj
    subst hj
    simp only [List.getElem?_cons_succ] at hi
    have hpos : 0 < l.countP p := List.countP_pos_iff.mpr ⟨a, List.getElem?_mem hi, ha⟩
    simp only [List.countP_cons, hb, if_true] at hc
    omega
  | x :: l, i + 1, j + 1, a, b, hc, hi, ha, hj, hb => by
    simp only [List.getElem?_cons_succ] at hi hj
    have hc' : l.countP p ≤ 1 := by
      simp only [List.countP_cons] at hc
      omega
    have := unique_of_countP_le_one p l i j a b hc' hi ha hj hb
    omega

theorem scrapeStep_inv {s s' : ScrapeState} {ev : ScrapeEvent}
    (h : s.activeCount = if s.locked then 1 else 0) (hs : scrapeStep s ev = some s') :
    s'.activeCount = if s'.locked then 1 else 0 := by
  obtain ⟨calls, locked, exited, samples⟩ := s
  simp only [ScrapeState.activeCount] at h ⊢
  cases ev with
  | arrive =>
    simp only [scrapeStep] at hs
    split_ifs at hs
    simp only [Option.some.injEq] at hs
    subst hs
    simpa [Phase.active] using h
  | lock i =>
    simp only [scrapeStep] at hs
    split_ifs at hs with h1 h2
    simp only [Option.some.injEq] at hs
    subst hs
    obtain ⟨hw, hl⟩ := h2
    subst hl
    have := countP_set Phase.active calls i Phase.waiting Phase.loading hw
    simp only [Phase.active, Bool.false_eq_true, if_false, if_true, add_zero] at this h ⊢
    omega
  | loaded i =>
    simp only [scrapeStep] at hs
    split_ifs at hs with h1 h2
    simp only [Option.some.injEq] at hs
    subst hs
    have := countP_set Phase.active calls i Phase.loading Phase.collecting h2
    simp [Phase.active] at this ⊢
    rw [this]
    exact h
  | fatal i =>
    simp only [scrapeStep] at hs
    split_ifs at hs with h1 h2
    simp only [Option.some.injEq] at hs
    subst hs
    exact h
  | sample i =>
    simp only [scrapeStep] at hs
    split_ifs at hs with h1 h2
    simp only [Option.some.injEq] at hs
    subst hs
    exact h
  | unlock i =>
    simp only [scrapeStep] at hs
    split_ifs at hs with h1 h2 h3
    · simp only [Option.some.injEq] at hs
      subst hs
      have := countP_set Phase.active calls i Phase.collecting Phase.returned h2
      simp only [Phase.active, h3, Bool.false_eq_true, if_false, if_true, add_zero] at this h ⊢
      omega
    · simp only [Option.some.injEq] at hs
      subst hs
      exact h

theorem scrapeRun_inv : ∀ (schedule : List ScrapeEvent) (s s' : ScrapeState),
    (s.activeCount = if s.locked then 1 else 0) → scrapeRun s schedule = some s' →
    s'.activeCount = if s'.locked then 1 else 0
  | [], s, s', h, hr => by
    simp only [scrapeRun, Option.some.injEq] at hr
    subst hr
    exact h
  | ev :: evs, s, s', h, hr => by
    simp only [scrapeRun] at hr
    cases hstep : scrapeStep s ev with
    | none => simp [hstep] at hr
    | some s1 =>
      simp only [hstep] at hr
      exact scrapeRun_inv evs s1 s' (scrapeStep_inv h hstep) hr

/-- C9: in every state the exporter reaches, for any number of scrape requests and any
interleaving: at most one call of `Collect` is between acquiring and releasing the
mutex, and the mutex is locked exactly when there is one; the configuration is read
and every sample is sent only with the mutex locked, by that one call; while it is
locked no other call returns from `Lock`; and once it is unlocked a waiting call can
acquire it. -/
theorem scrape_mutual_exclusion (schedule : List ScrapeEvent) (s : ScrapeState)
    (h : scrapeRun scrapeInit schedule = some s) :
    s.activeCount ≤ 1
    ∧ (s.locked = true ↔ s.activeCount = 1)
    ∧ (∀ (i : ℕ) (p : Phase) (j : ℕ) (q : Phase), s.calls[i]? = some p → p.active = true →
        s.calls[j]? = some q → q.active = true → j = i)
    ∧ (∀ i s', (scrapeStep s (ScrapeEvent.loaded i) = some s'
          ∨ scrapeStep s (ScrapeEvent.fatal i) = some s'
          ∨ scrapeStep s (ScrapeEvent.sample i) = some s') →
        s.locked = true ∧ ∃ p, s.calls[i]? = some p ∧ p.active = true)
    ∧ (s.locked = true → ∀ j, scrapeStep s (ScrapeEvent.lock j) = none)
    ∧ (s.locked = false → s.exited = false → ∀ j, s.calls[j]? = some Phase.waiting →
        ∃ s', scrapeStep s (ScrapeEvent.lock j) = some s') := by
  have hinv := scrapeRun_inv schedule scrapeInit s (by decide) h
  have hle : s.activeCount ≤ 1 := by rw [hinv]; split_ifs <;> omega
  have hiff : s.locked = true ↔ s.activeCount = 1 := by
    rw [hinv]
    cases s.locked <;> simp
  have hactive : ∀ (i : ℕ) (p : Phase), s.calls[i]? = some p → p.active = true →
      s.locked = true := by
    intro i p hi hp
    have hpos : 0 < s.activeCount := List.countP_pos_iff.mpr ⟨p, List.getElem?_mem hi, hp⟩
    exact hiff.mpr (by omega)
  refine ⟨hle, hiff, ?_, ?_, ?_, ?_⟩
  · intro i p j q hi hp hj hq
    exact unique_of_countP_le_one Phase.active s.calls i j p q hle hi hp hj hq
  · intro i s' hs
    have key : ∃ p, s.calls[i]? = some p ∧ p.active = true := by
      rcases hs with hs | hs | hs
      · simp only [scrapeStep] at hs
        split_ifs at hs with h1 h2
        exact ⟨_, h2, rfl⟩
      · simp only [scrapeStep] at hs
        split_ifs at hs with h1 h2
        exact ⟨_, h2, rfl⟩
      · simp only [scrapeStep] at hs
        split_ifs at hs with h1 h2
        exact ⟨_, h2, rfl⟩
    obtain ⟨p, hp, hpa⟩ := key
    exact ⟨hactive i p hp hpa, p, hp, hpa⟩
  · intro hl j
    simp [scrapeStep, hl]
  · intro hl he j hj
    exact ⟨_, by simp [scrapeStep, hl, he, hj]; rfl⟩

/-- C9 witness: a second scrape arrives while the first holds the mutex; it locks
after the first has returned, and a schedule in which it locks before that is not
one the mutex allows. -/
theorem scrape_mutual_exclusion_witness :
    scrapeRun scrapeInit twoScrapes = some twoScrapesEnd
    ∧ twoScrapesEnd.activeCount ≤ 1
    ∧ (twoScrapesEnd.locked = true → ∀ j, scrapeStep twoScrapesEnd (ScrapeEvent.lock j) = none)
    ∧ scrapeRun scrapeInit
        [ScrapeEvent.arrive, ScrapeEvent.lock 0, ScrapeEvent.arrive, ScrapeEvent.lock 1] = none :=
  have h : scrapeRun scrapeInit twoScrapes = some twoScrapesEnd := by decide
  have hc := scrape_mutual_exclusion twoScrapes twoScrapesEnd h
  ⟨h, hc.1, hc.2.2.2.2.1, by decide⟩

end Main
